import Mathlib

/-!
# Verification of the propositional-logic formula engine

Shallow embedding of the engine's core components (parser, formatter,
position addressing, unit propagation, determinism classifiers, pure-atom
simplifier, polarity calculator, Tseytin transformer) and proofs of the
specified properties.

Conventions used throughout the embedding:
* JavaScript strings are modelled as `List Char` (the input formula enters
  as a Lean `String` and is immediately converted via `String.data`).
* A JavaScript `Set` of strings is modelled as a duplicate-free `List`
  that keeps first insertion order.
* JavaScript functions that can throw, or that can place a non-string
  object where a string is required, are modelled in `Option`.
-/

namespace Quiz

/-- The four binary operators recognised by the parser. -/
inductive BinOp
  | conj   -- ∧
  | disj   -- ∨
  | impl   -- →
  | equiv  -- ↔
deriving DecidableEq

/-- Formula AST node as produced by the parser:
`variable` (single letter), `constant` (⊤ modelled as `true`, ⊥ as `false`),
unary negation, and binary nodes. -/
inductive Node
  | var (value : Char)
  | const (value : Bool)
  | neg (operand : Node)
  | bin (operator : BinOp) (left right : Node)
deriving DecidableEq

/-- Standard truth-value semantics of a formula under an assignment of the
variables; `→` is material implication and `↔` is boolean equality. -/
def evalNode (v : Char → Bool) : Node → Bool
  | .var c => v c
  | .const b => b
  | .neg x => !(evalNode v x)
  | .bin .conj l r => evalNode v l && evalNode v r
  | .bin .disj l r => evalNode v l || evalNode v r
  | .bin .impl l r => !(evalNode v l) || evalNode v r
  | .bin .equiv l r => evalNode v l == evalNode v r

/-- Test for `node.type === 'binary'`. -/
def Node.isBinary : Node → Bool
  | .bin _ _ _ => true
  | _ => false

/-! ## Formatter (scripts/core/formatter.js) -/

namespace Formatter

/-- The operator glyph stored in a binary node. -/
def glyph : BinOp → String
  | .conj => "∧"
  | .disj => "∨"
  | .impl => "→"
  | .equiv => "↔"

/-- `Formatter.toText`: leaves render as their literal value, a unary as `¬`
followed by its operand (parenthesised when the operand is a binary), a
binary via `formatBinaryOperation` which parenthesises each child that is a
binary and wraps the whole in one more pair of parentheses. The mutual
`toText`/`addParenthesesIfNeeded` pair of the source is flattened into one
structural recursion; `addParenthesesIfNeeded` is recovered below and
agrees definitionally. -/
def toText : Node → String
  | .var c => String.singleton c
  | .const b => if b then "⊤" else "⊥"
  | .neg x => "¬" ++ (if x.isBinary then "(" ++ toText x ++ ")" else toText x)
  | .bin op l r =>
      "(" ++ (if l.isBinary then "(" ++ toText l ++ ")" else toText l)
          ++ glyph op
          ++ (if r.isBinary then "(" ++ toText r ++ ")" else toText r) ++ ")"

/-- `Formatter.addParenthesesIfNeeded`: wraps the rendering of a node in
parentheses exactly when the node is a binary node. -/
def addParenthesesIfNeeded (x : Node) : String :=
  if x.isBinary then "(" ++ toText x ++ ")" else toText x

end Formatter

/-! ## Claim-side and amended renderers for the formatting claim -/

/-- Renderer written from the claim's words: a Binary node renders as exactly
one pair of enclosing parentheses around the renderings of its two children
joined by the operator glyph; a Unary as `¬` plus its operand's rendering,
parenthesised exactly when the operand is a Binary; leaves as their value. -/
def claimRender : Node → String
  | .var c => String.singleton c
  | .const b => if b then "⊤" else "⊥"
  | .neg x => "¬" ++ (if x.isBinary then "(" ++ claimRender x ++ ")" else claimRender x)
  | .bin op l r => "(" ++ claimRender l ++ Formatter.glyph op ++ claimRender r ++ ")"

/-- Renderer written from the amended claim: a Binary node renders as
`(L OP R)` where `L` and `R` are the children's renderings with one extra
pair of parentheses added when the child is itself a Binary node (so Binary
children appear doubly parenthesised); Unary and leaves as in the claim. -/
def amendedRender : Node → String
  | .var c => String.singleton c
  | .const b => if b then "⊤" else "⊥"
  | .neg x => "¬" ++ (if x.isBinary then "(" ++ amendedRender x ++ ")" else amendedRender x)
  | .bin op l r =>
      "(" ++ (if l.isBinary then "(" ++ amendedRender l ++ ")" else amendedRender l)
          ++ Formatter.glyph op
          ++ (if r.isBinary then "(" ++ amendedRender r ++ ")" else amendedRender r) ++ ")"

/-- Extra-parenthesisation step of the amended renderer: adds a pair of
parentheses around the rendering of a Binary child. -/
def amendedWrap (x : Node) : String :=
  if x.isBinary then "(" ++ amendedRender x ++ ")" else amendedRender x

/-! ## Position strings (shared by tree.js and determinism.js) -/

/-- JavaScript `String.prototype.trim`: removes leading and trailing
whitespace characters. -/
def trimChars (s : List Char) : List Char :=
  ((s.dropWhile Char.isWhitespace).reverse.dropWhile Char.isWhitespace).reverse

/-- JavaScript `String.prototype.split` with a one-character separator:
returns the (possibly empty) chunks between separator occurrences;
splitting the empty string yields one empty chunk. -/
def splitOnChar (sep : Char) : List Char → List (List Char)
  | [] => [[]]
  | c :: rest =>
    let r := splitOnChar sep rest
    if c = sep then [] :: r
    else
      match r with
      | h :: t => (c :: h) :: t
      | [] => [[c]]

/-- Decimal value of a list of digit characters. -/
def digitsToNat (s : List Char) : Nat :=
  s.foldl (fun a c => 10 * a + (c.toNat - 48)) 0

/-- Models the JavaScript `Number(chunk)` coercion applied to the chunks of a
dot-separated position string: whitespace is trimmed, the empty chunk
coerces to `0`, a run of decimal digits to its value, and anything else to
`NaN` (modelled as `none`; exotic numeric formats such as hex or signed
forms are not modelled — every non-`1` value drives the walk identically). -/
def jsNumber (s : List Char) : Option Nat :=
  let t := trimChars s
  if t = [] then some 0
  else if t.all Char.isDigit then some (digitsToNat t) else none

/-- `position.split('.').map(Number)`. -/
def posSteps (position : String) : List (Option Nat) :=
  (splitOnChar '.' position.data).map jsNumber

/-! ## Tree (scripts/core/tree.js) -/

namespace Tree

/-- The step loop of `Tree.getSubformulaAtPosition`: on a unary node a step
equal to `1` enters the operand; on a binary node step `1` selects the left
child and any other step value selects the right child; any step on a leaf,
or a step other than `1` on a unary node, returns `null`. -/
def walk : Node → List (Option Nat) → Option Node
  | t, [] => some t
  | t, step :: rest =>
    match t with
    | .neg x => if step = some 1 then walk x rest else none
    | .bin _ l r => if step = some 1 then walk l rest else walk r rest
    | _ => none

/-- `Tree.getSubformulaAtPosition`: the empty (falsy) position returns the
tree itself, otherwise the dot-split, `Number`-coerced steps are walked. -/
def getSubformulaAtPosition (tree : Node) (position : String) : Option Node :=
  if position = "" then some tree
  else walk tree (posSteps position)

end Tree

/-! ## Claim-side position lookup for the position-addressing claim -/

/-- Step walk written from the claim's words: any step of the path that is
invalid — stepping into a leaf, using a step other than `1` on a Unary, or
using a step outside `{1,2}` — yields a not-found result; step `1` selects
a Unary's operand or a Binary's left child, step `2` a Binary's right
child. -/
def claimStepWalk : Node → List (Option Nat) → Option Node
  | t, [] => some t
  | t, step :: rest =>
    if step = some 1 then
      match t with
      | .neg x => claimStepWalk x rest
      | .bin _ l _ => claimStepWalk l rest
      | _ => none
    else if step = some 2 then
      match t with
      | .bin _ _ r => claimStepWalk r rest
      | _ => none
    else none

/-- Position lookup written from the claim's words (the empty position
returns the root). -/
def claimSubformulaAt (tree : Node) (position : String) : Option Node :=
  if position = "" then some tree
  else claimStepWalk tree (posSteps position)

/-- C9 counterexample: on the tree `a∧b` and position `"3"`, the code
follows the else-branch of the binary case and returns the right child `b`,
whereas the claim requires a not-found result for a step outside `{1,2}`. -/
theorem c9_counterexample :
    Tree.getSubformulaAtPosition (.bin .conj (.var 'a') (.var 'b')) "3"
      = some (.var 'b')
    ∧ claimSubformulaAt (.bin .conj (.var 'a') (.var 'b')) "3" = none := by
  constructor <;> decide

/-- C9 (amended): `getSubformulaAtPosition` returns the root for the empty
position; a step `1` enters a Unary's operand or a Binary's left child; on a
Binary node every step other than `1` (including `2`, `0`, `3` or a
non-numeric step) selects the right child; a step other than `1` on a Unary
node, or any step on a leaf, returns a not-found result; a nonempty position
is processed by walking the dot-split, `Number`-coerced steps. -/
theorem c9_amended :
    (∀ t : Node, Tree.getSubformulaAtPosition t "" = some t)
    ∧ (∀ (x : Node) rest, Tree.walk (.neg x) (some 1 :: rest) = Tree.walk x rest)
    ∧ (∀ (x : Node) s rest, s ≠ some 1 → Tree.walk (.neg x) (s :: rest) = none)
    ∧ (∀ op (l r : Node) rest,
        Tree.walk (.bin op l r) (some 1 :: rest) = Tree.walk l rest)
    ∧ (∀ op (l r : Node) s rest, s ≠ some 1 →
        Tree.walk (.bin op l r) (s :: rest) = Tree.walk r rest)
    ∧ (∀ c s rest, Tree.walk (.var c) (s :: rest) = none)
    ∧ (∀ b s rest, Tree.walk (.const b) (s :: rest) = none)
    ∧ (∀ t pos, pos ≠ "" →
        Tree.getSubformulaAtPosition t pos = Tree.walk t (posSteps pos)) := by
  refine ⟨fun t => rfl, fun x rest => by simp [Tree.walk],
    fun x s rest h => by simp [Tree.walk, h], fun op l r rest => by simp [Tree.walk],
    fun op l r s rest h => by simp [Tree.walk, h], fun c s rest => by simp [Tree.walk],
    fun b s rest => by simp [Tree.walk], fun t pos h => by
      simp [Tree.getSubformulaAtPosition, h]⟩

/-- C9 amended witness: the amended theorem applied at concrete inputs,
discharging each hypothesis. -/
theorem c9_amended_witness :
    Tree.walk (.neg (.var 'a')) (some 2 :: []) = none
    ∧ Tree.walk (.bin .conj (.var 'a') (.var 'b')) (some 3 :: [])
        = Tree.walk (.var 'b') []
    ∧ Tree.getSubformulaAtPosition (.var 'a') "1"
        = Tree.walk (.var 'a') (posSteps "1") := by
  refine ⟨c9_amended.2.2.1 (.var 'a') (some 2) [] (by decide),
    c9_amended.2.2.2.2.1 .conj (.var 'a') (.var 'b') (some 3) [] (by decide),
    c9_amended.2.2.2.2.2.2.2 (.var 'a') "1" (by decide)⟩

/-! ## Formatting claim theorems -/

/-- C7 counterexample: the formatter renders `(a∧b)∨c` as `(((a∧b))∨c)` —
the Binary child `a∧b` receives an extra pair of parentheses — whereas the
claim's single-pair rendering would produce `((a∧b)∨c)`. -/
theorem c7_counterexample :
    Formatter.toText (.bin .disj (.bin .conj (.var 'a') (.var 'b')) (.var 'c'))
      = "(((a∧b))∨c)"
    ∧ claimRender (.bin .disj (.bin .conj (.var 'a') (.var 'b')) (.var 'c'))
      = "((a∧b)∨c)"
    ∧ Formatter.toText (.bin .disj (.bin .conj (.var 'a') (.var 'b')) (.var 'c'))
      ≠ claimRender (.bin .disj (.bin .conj (.var 'a') (.var 'b')) (.var 'c')) := by
  refine ⟨rfl, rfl, by decide⟩

/-- C7 (amended): the text formatter renders a Variable or Constant leaf as
its literal value, renders a Unary node as `¬` followed by its operand's
rendering with parentheses added exactly when the operand is a Binary node,
and renders a Binary node as `(L OP R)` where `L` and `R` are the children's
renderings with one extra pair of parentheses added around a child that is
itself a Binary node (so Binary children appear doubly parenthesised). -/
theorem c7_amended (n : Node) : Formatter.toText n = amendedRender n := by
  induction n with
  | var c => rfl
  | const b => rfl
  | neg x ih => simp [Formatter.toText, amendedRender, ih]
  | bin op l r ihl ihr => simp [Formatter.toText, amendedRender, ihl, ihr]

/-! ## Shared helpers for the CNF modules -/

/-- A literal as stored by the propagation modules: its raw text, e.g.
`['¬','a']` or `['a']`. -/
abbrev Lit := List Char

/-- `literal.startsWith('¬') ? literal.slice(1) : literal`. -/
def stripNeg (lit : Lit) : Lit :=
  if lit.head? = some '¬' then lit.tail else lit

/-- Truth value a propagated unit literal assigns:
`!literal.startsWith('¬')`. -/
def litValue (lit : Lit) : Bool :=
  if lit.head? = some '¬' then false else true

/-- The complementary literal:
`literal.startsWith('¬') ? literal.slice(1) : '¬' + literal`. -/
def negLiteral (lit : Lit) : Lit :=
  if lit.head? = some '¬' then lit.tail else '¬' :: lit

/-- Insertion into a JavaScript `Set` (first occurrence kept, insertion
order preserved). -/
def jsSetInsert {α : Type} [DecidableEq α] (s : List α) (x : α) : List α :=
  if x ∈ s then s else s ++ [x]

/-- `new Set(list)`: duplicate-free list keeping first occurrences. -/
def jsSetOf {α : Type} [DecidableEq α] (l : List α) : List α :=
  l.foldl jsSetInsert []

/-- `Map.get`: first (and only) binding of a key in an association list. -/
def alookup {α β : Type} [DecidableEq α] : List (α × β) → α → Option β
  | [], _ => none
  | (k, v) :: rest, key => if k = key then some v else alookup rest key

/-- `Map.set`: overwrite the binding if present, else append it. -/
def mapSet {α β : Type} [DecidableEq α] (m : List (α × β)) (k : α) (v : β) :
    List (α × β) :=
  if (alookup m k).isSome then
    m.map (fun p => if p.1 = k then (k, v) else p)
  else m ++ [(k, v)]

/-! ## Determinism checker (scripts/modules/determinism.js) -/

namespace DeterminismChecker

/-- `DeterminismChecker.parseCNF`: split on `∧`, trim each conjunct, strip
one level of outer parentheses, split on `∨` and trim each literal. -/
def parseCNF (formula : String) : List (List Lit) :=
  ((splitOnChar '∧' formula.data).map trimChars).map fun c =>
    let p :=
      if c.head? = some '(' ∧ c.getLast? = some ')' then (c.drop 1).dropLast else c
    (splitOnChar '∨' p).map trimChars

/-- `DeterminismChecker.getAllVariables`: the set (insertion order) of base
variable names occurring in the clauses. -/
def getAllVariables (clauses : List (List Lit)) : List Lit :=
  clauses.foldl
    (fun acc clause => clause.foldl (fun a lit => jsSetInsert a (stripNeg lit)) acc)
    []

/-- Terminal state of `performUnitPropagation`: a contradiction, all clauses
eliminated (`isEmpty`), or a stall with remaining clauses. -/
inductive PropOutcome
  | contradiction (steps : List Lit) (assignments : List (Lit × Bool))
  | emptied (steps : List Lit) (assignments : List (Lit × Bool))
  | stalled (remaining : List (List Lit)) (steps : List Lit)
      (assignments : List (Lit × Bool))
deriving DecidableEq

/-- `currentClauses.find(clause => clause.size === 1)` together with the
rest of the list in order (the found clause is skipped by object identity
in the loop; every other clause keeps its position). -/
def extractFirstUnit : List (List Lit) → Option (List Lit × List (List Lit))
  | [] => none
  | c :: rest =>
    if c.length = 1 then some (c, rest)
    else
      match extractFirstUnit rest with
      | some (u, others) => some (u, c :: others)
      | none => none

theorem extractFirstUnit_length {l : List (List Lit)} {u : List Lit}
    {others : List (List Lit)} (h : extractFirstUnit l = some (u, others)) :
    others.length + 1 = l.length := by
  induction l generalizing u others with
  | nil => simp [extractFirstUnit] at h
  | cons c rest ih =>
    by_cases hc : c.length = 1
    · simp [extractFirstUnit, hc] at h
      simp [h.2.symm]
    · simp only [extractFirstUnit, if_neg hc] at h
      cases hrest : extractFirstUnit rest with
      | none => simp [hrest] at h
      | some p =>
        obtain ⟨u2, o2⟩ := p
        simp [hrest] at h
        have := ih hrest
        simp [← h.2, List.length_cons]
        omega

/-- Body of the per-clause propagation: a clause containing the literal is
satisfied and dropped; otherwise the complementary literal is removed from
it (keeping the clause unless stated otherwise). -/
def processClause (lit negLit : Lit) (c : List Lit) : Option (List Lit) :=
  if lit ∈ c then none
  else if negLit ∈ c then some (c.erase negLit) else some c

/-- True when some clause not containing the literal would become empty
after removal of the complementary literal — the contradiction case of the
propagation loop. -/
def hasEmptyingClause (others : List (List Lit)) (lit negLit : Lit) : Bool :=
  others.any fun c => decide (lit ∉ c ∧ negLit ∈ c ∧ c.erase negLit = [])

/-- The `while (true)` loop of `DeterminismChecker.performUnitPropagation`,
operating on clauses already converted to sets. -/
def propLoop (clauses : List (List Lit)) (assignments : List (Lit × Bool))
    (steps : List Lit) : PropOutcome :=
  match h : extractFirstUnit clauses with
  | none => .stalled clauses steps assignments
  | some (unit, others) =>
    let lit := unit.headD []
    let varName := stripNeg lit
    let value := litValue lit
    let steps2 := steps ++ [lit]
    if (alookup assignments varName).isSome
        ∧ alookup assignments varName ≠ some value then
      .contradiction steps2 assignments
    else
      let assignments2 := mapSet assignments varName value
      if hasEmptyingClause others lit (negLiteral lit) then
        .contradiction steps2 assignments2
      else
        let newClauses := others.filterMap (processClause lit (negLiteral lit))
        if newClauses = [] then .emptied steps2 assignments2
        else propLoop newClauses assignments2 steps2
termination_by clauses.length
decreasing_by
  have h1 := extractFirstUnit_length h
  have h2 := List.length_filterMap_le
    (processClause (unit.headD []) (negLiteral (unit.headD []))) others
  omega

/-- `DeterminismChecker.performUnitPropagation`: converts every clause to a
set (collapsing duplicate literals) and runs the propagation loop. -/
def performUnitPropagation (clauses : List (List Lit)) : PropOutcome :=
  propLoop (clauses.map jsSetOf) [] []

/-- The four verdicts of the CNF determinism check. -/
inductive DVerdict
  | noUnitClauses
  | satisfiable
  | unsatisfiable
  | undetermined
deriving DecidableEq

/-- Result record of `checkCNFDeterminism`. -/
structure DCheckResult where
  isDeterministic : Bool
  determinismResult : DVerdict
  explanation : String
deriving DecidableEq

/-- `DeterminismChecker.checkCNFDeterminism`: no unit clause at parse time
means `noUnitClauses`; otherwise propagation runs and the terminal state is
mapped to a verdict, with a stall still counting as satisfiable when every
variable of the original clauses has an assignment. -/
def checkCNFDeterminism (formula : String) : DCheckResult :=
  let clauses := parseCNF formula
  if clauses.any (fun c => decide (c.length = 1)) then
    match performUnitPropagation clauses with
    | .emptied _ _ =>
      ⟨true, .satisfiable,
        "Unit propagation determines that the formula is satisfiable"⟩
    | .contradiction _ _ =>
      ⟨true, .unsatisfiable,
        "Unit propagation determines that the formula is unsatisfiable"⟩
    | .stalled _ _ assigns =>
      if (getAllVariables clauses).all (fun v => (alookup assigns v).isSome) then
        ⟨true, .satisfiable,
          "Unit propagation determines that the formula is satisfiable"⟩
      else
        ⟨false, .undetermined,
          "Unit propagation can be used but cannot determine satisfiability"⟩
  else
    ⟨false, .noUnitClauses, "Unit propagation cannot be used within the formula"⟩

end DeterminismChecker

/-! ## General determinism checker (general-determinism.js) -/

namespace GeneralDeterminismChecker

/-- `GeneralDeterminismChecker.parseCNF`: identical parse to the CNF
checker's (split on `∧`, trim, strip outer parentheses, split on `∨`,
trim). -/
def parseCNF (formula : String) : List (List Lit) :=
  ((splitOnChar '∧' formula.data).map trimChars).map fun c =>
    let p :=
      if c.head? = some '(' ∧ c.getLast? = some ')' then (c.drop 1).dropLast else c
    (splitOnChar '∨' p).map trimChars

/-- Terminal state of the general checker's `performUnitPropagation`. Its
contradiction case arises only from a conflicting unit-literal assignment —
emptied clauses are silently dropped by `propagateLiteral`. -/
inductive GPropOutcome
  | contradiction (steps : List Lit)
  | emptied (steps : List Lit) (assignments : List (Lit × Bool))
  | stalled (remaining : List (List Lit)) (steps : List Lit)
      (assignments : List (Lit × Bool))
deriving DecidableEq

/-- `GeneralDeterminismChecker.propagateLiteral`: drop clauses containing
the literal, delete the complementary literal from the rest, and drop any
clause that becomes empty. -/
def propagateLiteral (clauses : List (List Lit)) (lit : Lit) : List (List Lit) :=
  ((clauses.filter fun c => decide (lit ∉ c)).map
      fun c => c.filter fun l => decide (l ≠ negLiteral lit)).filter
    fun c => decide (0 < c.length)

/-- `clauses.find(c => c.length === 1)`: the first unit clause, if any. -/
def findUnit : List (List Lit) → Option (List Lit)
  | [] => none
  | c :: rest => if c.length = 1 then some c else findUnit rest

theorem findUnit_some {l : List (List Lit)} {u : List Lit}
    (h : findUnit l = some u) : u ∈ l ∧ u.length = 1 := by
  induction l with
  | nil => simp [findUnit] at h
  | cons c rest ih =>
    by_cases hc : c.length = 1
    · simp [findUnit, hc] at h
      simp [← h, hc]
    · simp only [findUnit, if_neg hc] at h
      have := ih h
      exact ⟨List.mem_cons_of_mem _ this.1, this.2⟩

/-- The `while (true)` loop of the general checker's
`performUnitPropagation`: clauses stay plain arrays (no duplicate
collapse), and a contradiction is detected only through the assignment
map. -/
def propLoopG (clauses : List (List Lit)) (assignments : List (Lit × Bool))
    (steps : List Lit) : GPropOutcome :=
  match h : findUnit clauses with
  | none => .stalled clauses steps assignments
  | some unit =>
    let lit := unit.headD []
    let varName := stripNeg lit
    let value := litValue lit
    let steps2 := steps ++ [lit]
    if (alookup assignments varName).isSome
        ∧ alookup assignments varName ≠ some value then
      .contradiction steps2
    else
      let assignments2 := mapSet assignments varName value
      let cc := propagateLiteral clauses lit
      if cc = [] then .emptied steps2 assignments2
      else propLoopG cc assignments2 steps2
termination_by clauses.length
decreasing_by
  have hmem : unit ∈ clauses := (findUnit_some h).1
  have hlen : unit.length = 1 := (findUnit_some h).2
  have hlit : unit.headD [] ∈ unit := by
    cases unit with
    | nil => simp at hlen
    | cons a t => simp
  have h1 : ((clauses.filter fun c => decide (unit.headD [] ∉ c)).length
      < clauses.length) := by
    rw [List.length_filter_lt_length_iff_exists]
    exact ⟨unit, hmem, by simpa using hlit⟩
  have h2 := List.length_filter_le (fun c => decide (0 < c.length))
    ((clauses.filter fun c => decide (unit.headD [] ∉ c)).map
      fun c => c.filter fun l => decide (l ≠ negLiteral (unit.headD [])))
  simp only [propagateLiteral]
  simp only [List.length_map] at h2
  omega

/-- `GeneralDeterminismChecker.performUnitPropagation`. -/
def performUnitPropagation (clauses : List (List Lit)) : GPropOutcome :=
  propLoopG clauses [] []

/-- Result record of `checkGeneralDeterminism`. -/
structure GCheckResult where
  isDeterministic : Bool
  determinismResult : DeterminismChecker.DVerdict
  explanation : String
deriving DecidableEq

/-- `GeneralDeterminismChecker.checkGeneralDeterminism`: the same initial
unit-clause existence check as the CNF checker, then its own propagation;
a stall is always `undetermined` (no all-variables-assigned fallback). -/
def checkGeneralDeterminism (formula : String) : GCheckResult :=
  let clauses := parseCNF formula
  if clauses.any (fun c => decide (c.length = 1)) then
    match performUnitPropagation clauses with
    | .emptied _ _ =>
      ⟨true, .satisfiable,
        "Unit propagation determines that the set of formulas is satisfiable"⟩
    | .contradiction _ =>
      ⟨true, .unsatisfiable,
        "Unit propagation determines that the set of formulas is unsatisfiable"⟩
    | .stalled _ _ _ =>
      ⟨false, .undetermined,
        "Unit propagation can be used but cannot determine satisfiability of the set of formulas"⟩
  else
    ⟨false, .noUnitClauses,
      "Unit propagation cannot be used within the set of formulas"⟩

/-- `GeneralDeterminismChecker.getStatements` (three statements; the typo
in the second one is the source's). -/
def getStatements : List String :=
  ["Satisfiability of S can be determined using only unit propagation",
   "Satifiability of S cannot be determined using only unit propagation",
   "Unit propagation cannot be used within S"]

/-- `GeneralDeterminismChecker.getCorrectStatementNumber`: both
`satisfiable` and `unsatisfiable` map to statement 1. -/
def getCorrectStatementNumber : DeterminismChecker.DVerdict → Nat
  | .satisfiable => 1
  | .unsatisfiable => 1
  | .undetermined => 2
  | .noUnitClauses => 3

end GeneralDeterminismChecker

/-! ## Stable insertion sort for boolean comparators

JavaScript's `Array.prototype.sort` is a stable sort driven by a comparator;
with a total comparator a stable sort is uniquely determined, so we model it
by a stable insertion sort over the comparator's `cmp ≤ 0` relation. -/

/-- Insert `a` before the first element `b` with `le a b`. -/
def orderedInsertB {α : Type} (le : α → α → Bool) (a : α) : List α → List α
  | [] => [a]
  | b :: l => if le a b then a :: b :: l else b :: orderedInsertB le a l

/-- Stable insertion sort with a boolean comparator relation. -/
def insertionSortB {α : Type} (le : α → α → Bool) : List α → List α
  | [] => []
  | a :: l => orderedInsertB le a (insertionSortB le l)

theorem perm_orderedInsertB {α : Type} (le : α → α → Bool) (a : α) :
    ∀ l : List α, List.Perm (orderedInsertB le a l) (a :: l)
  | [] => List.Perm.refl _
  | b :: l => by
    by_cases h : le a b
    · simp [orderedInsertB, h]
    · simp only [orderedInsertB, if_neg h]
      exact ((perm_orderedInsertB le a l).cons b).trans (List.Perm.swap a b l)

theorem perm_insertionSortB {α : Type} (le : α → α → Bool) :
    ∀ l : List α, List.Perm (insertionSortB le l) l
  | [] => List.Perm.refl _
  | a :: l => by
    simp only [insertionSortB]
    exact (perm_orderedInsertB le a (insertionSortB le l)).trans
      ((perm_insertionSortB le l).cons a)

/-- Lexicographic `≤` on character lists; ASCII `localeCompare` order for
the plain lowercase variable names this code compares. -/
def charListLe : List Char → List Char → Bool
  | [], _ => true
  | _ :: _, [] => false
  | a :: as, b :: bs => if a = b then charListLe as bs else decide (a < b)

/-- `[...list].join(sep)`. -/
def joinWith (sep : Char) : List (List Char) → List Char
  | [] => []
  | [c] => c
  | c :: rest => c ++ sep :: joinWith sep rest

/-! ## Standalone unit propagation (unit-propagation.js) -/

namespace UnitPropagation

/-- `UnitPropagation.parseToClauses`: like the determinism parse, but a
conjunct with no `∨` becomes the one-literal clause directly. -/
def parseToClauses (formula : String) : List (List Lit) :=
  ((splitOnChar '∧' formula.data).map trimChars).map fun c =>
    let clean :=
      if c.head? = some '(' ∧ c.getLast? = some ')' then (c.drop 1).dropLast else c
    if '∨' ∈ clean then (splitOnChar '∨' clean).map trimChars
    else [trimChars clean]

/-- `UnitPropagation.findUnitClause`:
`clauses.find(clause => clause.length === 1)`. -/
def findUnitClause : List (List Lit) → Option (List Lit)
  | [] => none
  | c :: rest => if c.length = 1 then some c else findUnitClause rest

theorem findUnitClause_some {l : List (List Lit)} {u : List Lit}
    (h : findUnitClause l = some u) : u ∈ l ∧ u.length = 1 := by
  induction l with
  | nil => simp [findUnitClause] at h
  | cons c rest ih =>
    by_cases hc : c.length = 1
    · simp [findUnitClause, hc] at h
      simp [← h, hc]
    · simp only [findUnitClause, if_neg hc] at h
      have := ih h
      exact ⟨List.mem_cons_of_mem _ this.1, this.2⟩

/-- `UnitPropagation.propagateLiteral`: drop clauses containing the
literal, delete the complementary literal, drop emptied clauses. -/
def propagateLiteral (clauses : List (List Lit)) (lit : Lit) : List (List Lit) :=
  ((clauses.filter fun c => decide (lit ∉ c)).map
      fun c => c.filter fun l => decide (l ≠ negLiteral lit)).filter
    fun c => decide (0 < c.length)

/-- One recorded propagation step: the literal and the comma-joined
before/after clause lists. -/
structure UPStep where
  literal : Lit
  beforeClauses : List (List Char)
  afterClauses : List (List Char)
deriving DecidableEq

/-- The propagation loop of `UnitPropagation.calculate`: returns the final
clauses, the set (insertion order) of propagated literals, and the step
trace. -/
def calcLoop (currentClauses : List (List Lit)) (literals : List Lit)
    (steps : List UPStep) : List (List Lit) × List Lit × List UPStep :=
  match h : findUnitClause currentClauses with
  | none => (currentClauses, literals, steps)
  | some unit =>
    let lit := unit.headD []
    let literals2 := jsSetInsert literals lit
    let newClauses := propagateLiteral currentClauses lit
    let step : UPStep :=
      ⟨lit, currentClauses.map (joinWith ','), newClauses.map (joinWith ',')⟩
    calcLoop newClauses literals2 (steps ++ [step])
termination_by currentClauses.length
decreasing_by
  have hmem : unit ∈ currentClauses := (findUnitClause_some h).1
  have hlen : unit.length = 1 := (findUnitClause_some h).2
  have hlit : unit.headD [] ∈ unit := by
    cases unit with
    | nil => simp at hlen
    | cons a t => simp
  have h1 : ((currentClauses.filter fun c => decide (unit.headD [] ∉ c)).length
      < currentClauses.length) := by
    rw [List.length_filter_lt_length_iff_exists]
    exact ⟨unit, hmem, by simpa using hlit⟩
  have h2 := List.length_filter_le (fun c => decide (0 < c.length))
    ((currentClauses.filter fun c => decide (unit.headD [] ∉ c)).map
      fun c => c.filter fun l => decide (l ≠ negLiteral (unit.headD [])))
  simp only [propagateLiteral]
  simp only [List.length_map] at h2
  omega

/-- Formats one propagated literal: `¬x` becomes `(-x)`, `x` becomes
`(x)`. -/
def formatLiteralEntry (lit : Lit) : List Char :=
  if lit.head? = some '¬' then '(' :: '-' :: (lit.tail ++ [')'])
  else '(' :: (lit ++ [')'])

/-- Formats one remaining clause: literals sorted alphabetically by base
variable (stable), `¬` rendered as `-`, comma-joined, parenthesised. -/
def formatClauseEntry (c : List Lit) : List Char :=
  let sorted := insertionSortB (fun a b => charListLe (stripNeg a) (stripNeg b)) c
  let fmtd := sorted.map fun l => if l.head? = some '¬' then '-' :: l.tail else l
  '(' :: (joinWith ',' fmtd ++ [')'])

/-- `UnitPropagation.formatResults`: the propagated literals first, then the
nonempty remaining clauses, semicolon-joined. -/
def formatResults (clauses : List (List Lit)) (literals : List Lit) : List Char :=
  joinWith ';'
    (literals.map formatLiteralEntry
      ++ (clauses.filter fun c => decide (0 < c.length)).map formatClauseEntry)

/-- Result record of `UnitPropagation.calculate` (the echoed input formula
and the duplicated `result` field are omitted). -/
structure UPResult where
  steps : List UPStep
  finalClauses : List (List Char)
  literals : List Lit
  formattedResult : List Char
deriving DecidableEq

/-- `UnitPropagation.calculate`. -/
def calculate (formula : String) : UPResult :=
  let clauses := parseToClauses formula
  let r := calcLoop clauses [] []
  ⟨r.2.2, r.1.map (joinWith ','), r.2.1, formatResults r.1 r.2.1⟩

end UnitPropagation

/-! ## Claims about the determinism classifiers and unit propagation -/

/-- Decision policy written from the claim's words: `noUnitClauses` when no
parsed clause has exactly one literal; otherwise run unit propagation to
completion and return `satisfiable` when all clauses are eliminated,
`unsatisfiable` on a contradiction, `satisfiable` when propagation stalls
but every variable occurring in the original clauses has received an
assignment, and `undetermined` otherwise. -/
def claimCNFPolicy (formula : String) : DeterminismChecker.DVerdict :=
  let clauses := DeterminismChecker.parseCNF formula
  if ∀ c ∈ clauses, c.length ≠ 1 then .noUnitClauses
  else
    match DeterminismChecker.performUnitPropagation clauses with
    | .emptied _ _ => .satisfiable
    | .contradiction _ _ => .unsatisfiable
    | .stalled _ _ assigns =>
      if ∀ v ∈ DeterminismChecker.getAllVariables clauses,
          (alookup assigns v).isSome then .satisfiable
      else .undetermined

set_option maxRecDepth 8000 in
/-- Concrete propagation run shared by several claims: on the parse of
`a∧¬a` the set-based engine propagates `a` and then finds the emptied
clause coming from `(¬a)`, a contradiction. -/
theorem propagation_eval_contra :
    DeterminismChecker.performUnitPropagation
        (DeterminismChecker.parseCNF "a∧¬a")
      = .contradiction [['a']] [(['a'], true)] := by
  simp [DeterminismChecker.performUnitPropagation, DeterminismChecker.propLoop,
    DeterminismChecker.parseCNF, DeterminismChecker.extractFirstUnit,
    DeterminismChecker.hasEmptyingClause, splitOnChar, trimChars, stripNeg,
    litValue, negLiteral, jsSetOf, jsSetInsert, alookup, mapSet]

/-- Concrete classifier run shared by several claims: the CNF determinism
verdict on `a∧¬a` is `unsatisfiable`. -/
theorem cnf_verdict_contra :
    (DeterminismChecker.checkCNFDeterminism "a∧¬a").determinismResult
      = .unsatisfiable := by
  have hany : (DeterminismChecker.parseCNF "a∧¬a").any
      (fun c => decide (c.length = 1)) = true := by decide
  simp only [DeterminismChecker.checkCNFDeterminism, hany, if_true,
    propagation_eval_contra]

/-- C2: for every CNF input string the classifier implements exactly the
claimed decision policy, and on input `a∧¬a` it returns `unsatisfiable`. -/
theorem c2_cnf_determinism_policy :
    (∀ formula : String,
      (DeterminismChecker.checkCNFDeterminism formula).determinismResult
        = claimCNFPolicy formula)
    ∧ (DeterminismChecker.checkCNFDeterminism "a∧¬a").determinismResult
        = .unsatisfiable := by
  refine ⟨?_, cnf_verdict_contra⟩
  intro f
  simp only [DeterminismChecker.checkCNFDeterminism, claimCNFPolicy]
  by_cases h : ∀ c ∈ DeterminismChecker.parseCNF f, c.length ≠ 1
  · have hany : (DeterminismChecker.parseCNF f).any
        (fun c => decide (c.length = 1)) = false := by
      simp only [List.any_eq_false, decide_eq_true_eq]
      exact h
    rw [if_neg (by simp [hany]), if_pos h]
  · have hany : (DeterminismChecker.parseCNF f).any
        (fun c => decide (c.length = 1)) = true := by
      simp only [List.any_eq_true, decide_eq_true_eq]
      push_neg at h
      simpa using h
    rw [if_pos hany, if_neg h]
    cases hp : DeterminismChecker.performUnitPropagation
        (DeterminismChecker.parseCNF f) with
    | contradiction s a => rfl
    | emptied s a => rfl
    | stalled rem s a =>
      by_cases hv : ∀ v ∈ DeterminismChecker.getAllVariables
          (DeterminismChecker.parseCNF f), (alookup a v).isSome = true
      · have hall : (DeterminismChecker.getAllVariables
            (DeterminismChecker.parseCNF f)).all
            (fun v => (alookup a v).isSome) = true := by
          simp only [List.all_eq_true]
          exact hv
        simp [hall, if_pos hv]
      · have hall : (DeterminismChecker.getAllVariables
            (DeterminismChecker.parseCNF f)).all
            (fun v => (alookup a v).isSome) = false := by
          simp only [List.all_eq_false]
          push_neg at hv
          simpa using hv
        simp [hall, if_neg hv]

set_option maxRecDepth 8000 in
/-- Concrete propagation run for the duplicate-literal claim: on
`(a∨a)∧b` the set conversion collapses `(a∨a)` to a size-1 clause, which is
selected first and propagated (first step literal `a`), after which `b`
empties the clause set. -/
theorem propagation_eval_dup :
    DeterminismChecker.performUnitPropagation
        (DeterminismChecker.parseCNF "(a∨a)∧b")
      = .emptied [['a'], ['b']] [(['a'], true), (['b'], true)] := by
  simp [DeterminismChecker.performUnitPropagation, DeterminismChecker.propLoop,
    DeterminismChecker.parseCNF, DeterminismChecker.extractFirstUnit,
    DeterminismChecker.hasEmptyingClause, DeterminismChecker.processClause,
    splitOnChar, trimChars, stripNeg, litValue, negLiteral, jsSetOf,
    jsSetInsert, alookup, mapSet]

/-- C10: the `noUnitClauses` verdict is returned exactly when no parsed
clause has exactly one literal occurrence (duplicates counted), so `(a∨a)`
alone yields `noUnitClauses`; but the propagation engine converts clauses
to sets, so on `(a∨a)∧b` the collapsed clause `(a∨a)` has size 1, is
selected first and propagated as a unit clause (first step literal `a`). -/
theorem c10_duplicate_literals :
    (∀ formula : String,
      (DeterminismChecker.checkCNFDeterminism formula).determinismResult
          = .noUnitClauses
        ↔ ∀ c ∈ DeterminismChecker.parseCNF formula, c.length ≠ 1)
    ∧ DeterminismChecker.parseCNF "(a∨a)" = [[['a'], ['a']]]
    ∧ (DeterminismChecker.checkCNFDeterminism "(a∨a)").determinismResult
        = .noUnitClauses
    ∧ DeterminismChecker.performUnitPropagation
        (DeterminismChecker.parseCNF "(a∨a)∧b")
      = .emptied [['a'], ['b']] [(['a'], true), (['b'], true)] := by
  refine ⟨?_, by decide, ?_, propagation_eval_dup⟩
  · intro f
    simp only [DeterminismChecker.checkCNFDeterminism]
    by_cases h : ∀ c ∈ DeterminismChecker.parseCNF f, c.length ≠ 1
    · have hany : (DeterminismChecker.parseCNF f).any
          (fun c => decide (c.length = 1)) = false := by
        simp only [List.any_eq_false, decide_eq_true_eq]
        exact h
      rw [if_neg (by simp [hany])]
      exact iff_of_true rfl h
    · have hany : (DeterminismChecker.parseCNF f).any
          (fun c => decide (c.length = 1)) = true := by
        simp only [List.any_eq_true, decide_eq_true_eq]
        push_neg at h
        simpa using h
      rw [if_pos hany]
      cases hp : DeterminismChecker.performUnitPropagation
          (DeterminismChecker.parseCNF f) with
      | contradiction s a => exact iff_of_false (by simp) h
      | emptied s a => exact iff_of_false (by simp) h
      | stalled rem s a =>
        cases hall : (DeterminismChecker.getAllVariables
            (DeterminismChecker.parseCNF f)).all
            (fun v => (alookup a v).isSome) with
        | true => exact iff_of_false (by simp [hall]) h
        | false => exact iff_of_false (by simp [hall]) h
  · have hany : (DeterminismChecker.parseCNF "(a∨a)").any
        (fun c => decide (c.length = 1)) = false := by decide
    simp only [DeterminismChecker.checkCNFDeterminism]
    rw [if_neg (by simp [hany])]

set_option maxRecDepth 8000 in
set_option maxHeartbeats 1000000 in
/-- Concrete run of the General checker's propagation on the parse of
`a∧¬a`: propagating `a` silently drops the emptied clause `(¬a)`, so the
clause set empties. -/
theorem gpropagation_eval_contra :
    GeneralDeterminismChecker.performUnitPropagation
        (GeneralDeterminismChecker.parseCNF "a∧¬a")
      = .emptied [['a']] [(['a'], true)] := by
  simp [GeneralDeterminismChecker.performUnitPropagation,
    GeneralDeterminismChecker.propLoopG, GeneralDeterminismChecker.findUnit,
    GeneralDeterminismChecker.propagateLiteral,
    GeneralDeterminismChecker.parseCNF, splitOnChar, trimChars, stripNeg,
    litValue, negLiteral, alookup, mapSet]

/-- Concrete General-checker verdict on `a∧¬a`: `satisfiable`. -/
theorem general_verdict_contra :
    (GeneralDeterminismChecker.checkGeneralDeterminism "a∧¬a").determinismResult
      = .satisfiable := by
  have hany : (GeneralDeterminismChecker.parseCNF "a∧¬a").any
      (fun c => decide (c.length = 1)) = true := by decide
  simp only [GeneralDeterminismChecker.checkGeneralDeterminism, hany, if_true,
    gpropagation_eval_contra]

/-- C3 counterexample: on `a∧¬a` the CNF classifier detects the emptied
clause and returns `unsatisfiable`, but the General checker's
`propagateLiteral` silently drops the emptied clause `(¬a)`, so its clause
set empties and it returns `satisfiable` — refuting both the claimed
verdict agreement and the claimed `unsatisfiable` General verdict. -/
theorem c3_counterexample :
    (DeterminismChecker.checkCNFDeterminism "a∧¬a").determinismResult
      = .unsatisfiable
    ∧ (GeneralDeterminismChecker.checkGeneralDeterminism "a∧¬a").determinismResult
      = .satisfiable :=
  ⟨cnf_verdict_contra, general_verdict_contra⟩

/-- C3 (amended): the two checkers share an identical parse and initial
unit-clause existence check, so one returns `noUnitClauses` exactly when
the other does, and the General checker's statement set has three entries
with both `satisfiable` and `unsatisfiable` collapsing to statement 1
("determinable"); but the propagation engines differ (the General checker
stores clauses as plain arrays, silently drops emptied clauses instead of
reporting a contradiction, and has no all-variables-assigned fallback), so
the verdicts can disagree: on `a∧¬a` the CNF classifier returns
`unsatisfiable` while the General checker returns `satisfiable`. -/
theorem c3_amended :
    (∀ formula : String,
      (GeneralDeterminismChecker.checkGeneralDeterminism formula).determinismResult
          = .noUnitClauses
        ↔ (DeterminismChecker.checkCNFDeterminism formula).determinismResult
          = .noUnitClauses)
    ∧ (DeterminismChecker.checkCNFDeterminism "a∧¬a").determinismResult
        = .unsatisfiable
    ∧ (GeneralDeterminismChecker.checkGeneralDeterminism "a∧¬a").determinismResult
        = .satisfiable
    ∧ GeneralDeterminismChecker.getCorrectStatementNumber .satisfiable = 1
    ∧ GeneralDeterminismChecker.getCorrectStatementNumber .unsatisfiable = 1
    ∧ GeneralDeterminismChecker.getStatements.length = 3 := by
  refine ⟨?_, cnf_verdict_contra, general_verdict_contra, rfl, rfl, rfl⟩
  intro f
  have hparse : GeneralDeterminismChecker.parseCNF f
      = DeterminismChecker.parseCNF f := rfl
  simp only [GeneralDeterminismChecker.checkGeneralDeterminism,
    DeterminismChecker.checkCNFDeterminism, hparse]
  by_cases hany : (DeterminismChecker.parseCNF f).any
      (fun c => decide (c.length = 1)) = true
  · rw [if_pos hany, if_pos hany]
    constructor
    · intro hg
      exfalso
      cases hpg : GeneralDeterminismChecker.performUnitPropagation
          (DeterminismChecker.parseCNF f) with
      | contradiction s => rw [hpg] at hg; simp at hg
      | emptied s a => rw [hpg] at hg; simp at hg
      | stalled rem s a => rw [hpg] at hg; simp at hg
    · intro hc
      exfalso
      cases hp : DeterminismChecker.performUnitPropagation
          (DeterminismChecker.parseCNF f) with
      | contradiction s a => rw [hp] at hc; simp at hc
      | emptied s a => rw [hp] at hc; simp at hc
      | stalled rem s a =>
        rw [hp] at hc
        cases hall : (DeterminismChecker.getAllVariables
            (DeterminismChecker.parseCNF f)).all
            (fun v => (alookup a v).isSome) with
        | true => simp [hall] at hc
        | false => simp [hall] at hc
  · have hany2 : (DeterminismChecker.parseCNF f).any
        (fun c => decide (c.length = 1)) = false := by
      simpa using hany
    rw [if_neg (by simp [hany2]), if_neg (by simp [hany2])]

set_option maxRecDepth 8000 in
set_option maxHeartbeats 1000000 in
/-- Concrete run of the standalone unit propagation on `(a∨b)∧(¬a)`:
`¬a` is propagated first, the derived unit `b` second, the clause set
empties, and the formatted result is `(-a);(b)`. -/
theorem up_calculate_eval :
    UnitPropagation.calculate "(a∨b)∧(¬a)"
      = ⟨[⟨['¬', 'a'], [['a', ',', 'b'], ['¬', 'a']], [['b']]⟩,
          ⟨['b'], [['b']], []⟩],
         [], [['¬', 'a'], ['b']], "(-a);(b)".data⟩ := by
  simp [UnitPropagation.calculate, UnitPropagation.calcLoop,
    UnitPropagation.parseToClauses, UnitPropagation.findUnitClause,
    UnitPropagation.propagateLiteral, UnitPropagation.formatResults,
    UnitPropagation.formatLiteralEntry, UnitPropagation.formatClauseEntry,
    insertionSortB, orderedInsertB, charListLe, splitOnChar, trimChars,
    stripNeg, litValue, negLiteral, jsSetInsert, joinWith]

/-- C4 counterexample: on `(a∨b)∧(¬a)` the propagated-literal list produced
by `UnitPropagation.calculate` is `[¬a, b]` — propagation continues on the
derived unit clause `(b)` — not the claimed `[¬a]`. -/
theorem c4_counterexample :
    (UnitPropagation.calculate "(a∨b)∧(¬a)").literals = [['¬', 'a'], ['b']]
    ∧ (UnitPropagation.calculate "(a∨b)∧(¬a)").literals ≠ [['¬', 'a']] := by
  rw [up_calculate_eval]
  exact ⟨rfl, by decide⟩

/-- C4 (amended): on input `(a∨b)∧(¬a)` the standalone Unit-Propagation
analysis propagates `¬a` first and then the derived unit `b`, empties the
clause set (satisfied), returns the ordered propagated-literal list
`[¬a, b]`, and returns the canonical formatted result string `(-a);(b)`. -/
theorem c4_amended :
    (UnitPropagation.calculate "(a∨b)∧(¬a)").finalClauses = []
    ∧ (UnitPropagation.calculate "(a∨b)∧(¬a)").literals = [['¬', 'a'], ['b']]
    ∧ ((UnitPropagation.calculate "(a∨b)∧(¬a)").steps.map
        UnitPropagation.UPStep.literal) = [['¬', 'a'], ['b']]
    ∧ (UnitPropagation.calculate "(a∨b)∧(¬a)").formattedResult
        = "(-a);(b)".data := by
  rw [up_calculate_eval]
  exact ⟨rfl, rfl, rfl, rfl⟩

/-! ## Pure-atom simplifier (scripts/modules/pure-atom.js) -/

namespace PureAtomSimplifier

/-- Recording one polarity observation for a variable: a fresh entry gets a
one-element polarity set, an existing entry adds the polarity to its set. -/
def addPolarity (m : List (Char × List Bool)) (c : Char) (p : Bool) :
    List (Char × List Bool) :=
  match alookup m c with
  | none => m ++ [(c, [p])]
  | some pols =>
    if p ∈ pols then m
    else m.map fun e => if e.1 = c then (c, pols ++ [p]) else e

/-- The polarity-tagged traversal of
`PureAtomSimplifier.collectVariablePolarities`: `∧`/`∨` preserve polarity,
`→` flips it for the antecedent, `¬` flips it, and `↔` records both
polarities for every variable below either side. -/
def collectInto (m : List (Char × List Bool)) : Node → Bool →
    List (Char × List Bool)
  | .var c, polarity => addPolarity m c polarity
  | .const _, _ => m
  | .neg x, polarity => collectInto m x (!polarity)
  | .bin .conj l r, polarity => collectInto (collectInto m l polarity) r polarity
  | .bin .disj l r, polarity => collectInto (collectInto m l polarity) r polarity
  | .bin .impl l r, polarity => collectInto (collectInto m l (!polarity)) r polarity
  | .bin .equiv l r, _ =>
    collectInto (collectInto (collectInto (collectInto m l true) l false) r true)
      r false

/-- `PureAtomSimplifier.collectVariablePolarities` (traversal starts with
positive polarity). -/
def collectVariablePolarities (ast : Node) : List (Char × List Bool) :=
  collectInto [] ast true

/-- `PureAtomSimplifier.findPureAtoms`: the variables whose polarity set has
exactly one element, mapped to that polarity. -/
def findPureAtoms (m : List (Char × List Bool)) : List (Char × Bool) :=
  m.filterMap fun e =>
    if e.2.length = 1 then some (e.1, e.2.contains true) else none

/-- `PureAtomSimplifier.evaluateBinaryOperation` on two constants. -/
def evaluateBinaryOperation (op : BinOp) (l r : Bool) : Node :=
  match op with
  | .conj => .const (l && r)
  | .disj => .const (l || r)
  | .impl => .const (!(l && !r))
  | .equiv => .const (l == r)

/-- The per-operator constant rules applied while substituting (the binary
case of `substituteNode` after both children are processed). -/
def substBin (op : BinOp) (L R : Node) : Node :=
  match L, R with
  | .const a, .const b => evaluateBinaryOperation op a b
  | _, _ =>
    match op with
    | .conj =>
      match L with
      | .const bL => if bL then R else .const false
      | _ =>
        match R with
        | .const bR => if bR then L else .const false
        | _ => .bin .conj L R
    | .disj =>
      match L with
      | .const bL => if bL then .const true else R
      | _ =>
        match R with
        | .const bR => if bR then .const true else L
        | _ => .bin .disj L R
    | .impl =>
      match L with
      | .const bL => if bL then R else .const true
      | _ =>
        match R with
        | .const bR => if bR then .const true else .neg L
        | _ => .bin .impl L R
    | .equiv =>
      match L with
      | .const bL => if bL then R else .neg R
      | _ =>
        match R with
        | .const bR => if bR then L else .neg L
        | _ => .bin .equiv L R

/-- `PureAtomSimplifier.substituteNode`: replaces every pure variable by the
constant matching its polarity and folds constants on the way up. -/
def substituteNode (pure : List (Char × Bool)) : Node → Node
  | .var c =>
    match alookup pure c with
    | some p => .const p
    | none => .var c
  | .const b => .const b
  | .neg x =>
    match substituteNode pure x with
    | .const b => .const (!b)
    | s => .neg s
  | .bin op l r => substBin op (substituteNode pure l) (substituteNode pure r)

/-- `PureAtomSimplifier.recursivelySimplify`, fuelled. The JavaScript
recursion terminates because simplification never grows a term (the
double-negation case re-simplifies a strict subterm of an already
simplified operand), so any fuel of at least the term size reproduces it;
the entry point below passes an ample bound. -/
def recursivelySimplifyAux : Nat → Node → Node
  | 0, n => n
  | fuel + 1, n =>
    match n with
    | .var c => .var c
    | .const b => .const b
    | .neg x =>
      match recursivelySimplifyAux fuel x with
      | .const b => .const (!b)
      | .neg y => recursivelySimplifyAux fuel y
      | s => .neg s
    | .bin op l r =>
      let L := recursivelySimplifyAux fuel l
      let R := recursivelySimplifyAux fuel r
      match L, R with
      | .const a, .const b => evaluateBinaryOperation op a b
      | _, _ =>
        match op with
        | .conj =>
          match L with
          | .const bL => if bL then R else .const false
          | _ =>
            match R with
            | .const bR => if bR then L else .const false
            | _ => .bin .conj L R
        | .disj =>
          match L with
          | .const bL => if bL then .const true else R
          | _ =>
            match R with
            | .const bR => if bR then .const true else L
            | _ => .bin .disj L R
        | .impl => .bin .impl L R
        | .equiv => .bin .equiv L R

/-- The number of constructors of a formula (fuel measure). -/
def nodeSize : Node → Nat
  | .var _ => 1
  | .const _ => 1
  | .neg x => nodeSize x + 1
  | .bin _ l r => nodeSize l + nodeSize r + 1

/-- `PureAtomSimplifier.recursivelySimplify` (only `∧`/`∨` have non-constant
rules here; the source leaves `→`/`↔` untouched). -/
def recursivelySimplify (n : Node) : Node :=
  recursivelySimplifyAux (2 * nodeSize n + 2) n

/-- `PureAtomSimplifier.substituteAndSimplify`. -/
def substituteAndSimplify (ast : Node) (pure : List (Char × Bool)) : Node :=
  recursivelySimplify (substituteNode pure ast)

end PureAtomSimplifier

/-- The multiset of variable occurrences of a formula, in order. -/
def varsOf : Node → List Char
  | .var c => [c]
  | .const _ => []
  | .neg x => varsOf x
  | .bin _ l r => varsOf l ++ varsOf r

/-! ## Pure-atom claim -/

namespace PureAtomSimplifier

theorem varsOf_substBin (op : BinOp) (L R : Node) :
    ∀ v ∈ varsOf (substBin op L R), v ∈ varsOf L ∨ v ∈ varsOf R := by
  intro v hv
  unfold substBin at hv
  split at hv
  · cases op <;> simp [evaluateBinaryOperation, varsOf] at hv
  · iterate 8 (all_goals try split at hv)
    all_goals simp_all [varsOf]

theorem varsOf_substituteNode (pure : List (Char × Bool)) (n : Node) :
    ∀ v ∈ varsOf (substituteNode pure n),
      v ∈ varsOf n ∧ alookup pure v = none := by
  induction n with
  | var c =>
    intro v hv
    unfold substituteNode at hv
    cases hl : alookup pure c with
    | some p => rw [hl] at hv; simp [varsOf] at hv
    | none =>
      rw [hl] at hv
      simp only [varsOf, List.mem_singleton] at hv
      subst hv
      exact ⟨by simp [varsOf], hl⟩
  | const b => intro v hv; simp [substituteNode, varsOf] at hv
  | neg x ih =>
    intro v hv
    simp only [varsOf]
    unfold substituteNode at hv
    split at hv
    · simp [varsOf] at hv
    · simp only [varsOf] at hv
      exact ih v hv
  | bin op l r ihl ihr =>
    intro v hv
    simp only [substituteNode] at hv
    rcases varsOf_substBin op _ _ v hv with h | h
    · have := ihl v h
      exact ⟨by simp [varsOf, this.1], this.2⟩
    · have := ihr v h
      exact ⟨by simp [varsOf, this.1], this.2⟩

theorem varsOf_recursivelySimplifyAux (fuel : Nat) :
    ∀ n : Node, ∀ v ∈ varsOf (recursivelySimplifyAux fuel n), v ∈ varsOf n := by
  induction fuel with
  | zero => intro n v hv; simpa [recursivelySimplifyAux] using hv
  | succ fuel ih =>
    intro n v hv
    cases n with
    | var c => simpa [recursivelySimplifyAux] using hv
    | const b => simpa [recursivelySimplifyAux] using hv
    | neg x =>
      simp only [recursivelySimplifyAux] at hv
      split at hv
      · simp [varsOf] at hv
      · rename_i y hy
        have h1 : v ∈ varsOf (recursivelySimplifyAux fuel x) := by
          rw [hy]
          simp only [varsOf]
          exact ih y v hv
        simpa [varsOf] using ih x v h1
      · simp only [varsOf] at hv
        simpa [varsOf] using ih x v hv
    | bin op l r =>
      simp only [recursivelySimplifyAux] at hv
      have hl := ih l
      have hr := ih r
      have hsub : v ∈ varsOf (recursivelySimplifyAux fuel l)
          ∨ v ∈ varsOf (recursivelySimplifyAux fuel r) → v ∈ varsOf (.bin op l r) := by
        intro h
        rcases h with h | h
        · simpa [varsOf] using Or.inl (hl v h)
        · simpa [varsOf] using Or.inr (hr v h)
      split at hv
      · rename_i a b ha hb
        cases op <;> simp [evaluateBinaryOperation, varsOf] at hv
      · iterate 8 (all_goals try split at hv)
        all_goals
          first
          | (exact hsub (by simp_all [varsOf]))
          | simp_all [varsOf]

theorem varsOf_recursivelySimplify (n : Node) :
    ∀ v ∈ varsOf (recursivelySimplify n), v ∈ varsOf n := by
  intro v hv
  exact varsOf_recursivelySimplifyAux _ n v hv

end PureAtomSimplifier

/-- C5 counterexample: on `(x∨z)∧¬x` the only pure atom is `z` (positive);
substituting `z := ⊤` and simplifying yields `¬x`, and re-running the same
polarity analysis on `¬x` finds the pure atom `x` — so a pure atom does
remain in the simplified output's variable set, refuting the claim. -/
theorem c5_counterexample :
    PureAtomSimplifier.findPureAtoms
        (PureAtomSimplifier.collectVariablePolarities
          (.bin .conj (.bin .disj (.var 'x') (.var 'z')) (.neg (.var 'x'))))
      = [('z', true)]
    ∧ PureAtomSimplifier.substituteAndSimplify
        (.bin .conj (.bin .disj (.var 'x') (.var 'z')) (.neg (.var 'x')))
        (PureAtomSimplifier.findPureAtoms
          (PureAtomSimplifier.collectVariablePolarities
            (.bin .conj (.bin .disj (.var 'x') (.var 'z')) (.neg (.var 'x')))))
      = .neg (.var 'x')
    ∧ PureAtomSimplifier.findPureAtoms
        (PureAtomSimplifier.collectVariablePolarities
          (PureAtomSimplifier.substituteAndSimplify
            (.bin .conj (.bin .disj (.var 'x') (.var 'z')) (.neg (.var 'x')))
            (PureAtomSimplifier.findPureAtoms
              (PureAtomSimplifier.collectVariablePolarities
                (.bin .conj (.bin .disj (.var 'x') (.var 'z')) (.neg (.var 'x')))))))
      ≠ [] := by
  refine ⟨by decide, by decide, by decide⟩

/-- C5 (amended): the substitution pass removes every variable that the
polarity analysis of the original formula found pure — no originally-pure
atom remains among the simplified output's variables — but the
simplification can make a remaining (originally impure) variable pure, as
`(x∨z)∧¬x` simplifying to `¬x` shows. -/
theorem c5_amended (ast : Node) :
    (varsOf (PureAtomSimplifier.substituteAndSimplify ast
        (PureAtomSimplifier.findPureAtoms
          (PureAtomSimplifier.collectVariablePolarities ast)))).all
      (fun v => (alookup (PureAtomSimplifier.findPureAtoms
        (PureAtomSimplifier.collectVariablePolarities ast)) v).isNone) = true := by
  rw [List.all_eq_true]
  intro v hv
  have h1 : v ∈ varsOf (PureAtomSimplifier.substituteNode
      (PureAtomSimplifier.findPureAtoms
        (PureAtomSimplifier.collectVariablePolarities ast)) ast) :=
    PureAtomSimplifier.varsOf_recursivelySimplify _ v (by simpa using hv)
  have h2 := PureAtomSimplifier.varsOf_substituteNode _ ast v h1
  simp [h2.2]

/-! ## Polarity calculator (polarity.js part of scripts/modules/determinism.js)

In the source, `PolarityCalculator.calculate` is broken: the comment block
that was meant to cover only debug logging also swallows the lines that
parse the formula and compute `polarityValue` via `calculatePolarity`, so
the method body references an undefined `polarityValue` and throws a
`ReferenceError` on every input. The path-replay computation itself lives
in `calculatePolarity`, which is modelled and verified here. -/

namespace PolarityCalculator

/-- The traversal loop of `PolarityCalculator.calculatePolarity`: at each
step the sign flips when the current node is `→` and the step is `1`, or
whenever the current node is `¬` (the source checks no step value for a
unary move); then the walk descends (a unary always into its operand, a
binary left on step `1` and right otherwise) and stops early at a leaf,
returning the sign accumulated so far. -/
def calcSteps : Node → List (Option Nat) → Int → Int
  | _, [], p => p
  | .neg x, _ :: rest, p => calcSteps x rest (-p)
  | .bin .impl l r, step :: rest, p =>
    if step = some 1 then calcSteps l rest (-p) else calcSteps r rest p
  | .bin _ l r, step :: rest, p =>
    if step = some 1 then calcSteps l rest p else calcSteps r rest p
  | _, _ :: _, p => p

/-- `PolarityCalculator.calculatePolarity`: the empty position is the root
with positive polarity `+1`; otherwise the dot-split, `Number`-coerced
steps are replayed from `+1`. -/
def calculatePolarity (formula : Node) (position : String) : Int :=
  if position = "" then 1
  else calcSteps formula (posSteps position) 1

end PolarityCalculator

/-- Sign of a node reached by a root-to-node path, written from the claim's
words: start at `+1`, flip on entering the left child of a `→` and on
entering the operand of a `¬`, preserve otherwise. -/
def replaySign : Node → List Nat → Int
  | _, [] => 1
  | .neg x, 1 :: rest => - replaySign x rest
  | .bin .impl l _, 1 :: rest => - replaySign l rest
  | .bin _ l _, 1 :: rest => replaySign l rest
  | .bin _ _ r, 2 :: rest => replaySign r rest
  | _, _ => 1

/-- Validity of a position in the specification's sense: every step is `1`
or `2`, step `1` enters a unary's operand or a binary's left child, step
`2` a binary's right child, and no step enters a leaf. -/
def specValidSteps : Node → List Nat → Bool
  | _, [] => true
  | .neg x, 1 :: rest => specValidSteps x rest
  | .bin _ l _, 1 :: rest => specValidSteps l rest
  | .bin _ _ r, 2 :: rest => specValidSteps r rest
  | _, _ => false

/-- Renders a step list as a dot-separated position string (steps below
`10`, as produced by valid positions). -/
def encodeSteps (steps : List Nat) : String :=
  String.mk (joinWith '.' (steps.map fun n => [Char.ofNat (48 + n)]))

theorem splitOnChar_no_sep (sep : Char) :
    ∀ c : List Char, sep ∉ c → splitOnChar sep c = [c] := by
  intro c
  induction c with
  | nil => intro _; rfl
  | cons a as ih =>
    intro h
    have ha : a ≠ sep := fun hEq => h (by simp [hEq])
    have has : sep ∉ as := fun hm => h (List.mem_cons_of_mem _ hm)
    simp only [splitOnChar, if_neg ha, ih has]

theorem splitOnChar_append_sep (sep : Char) :
    ∀ (c t : List Char), sep ∉ c →
      splitOnChar sep (c ++ sep :: t) = c :: splitOnChar sep t := by
  intro c
  induction c with
  | nil =>
    intro t _
    simp [splitOnChar]
  | cons a as ih =>
    intro t h
    have ha : a ≠ sep := fun hEq => h (by simp [hEq])
    have has : sep ∉ as := fun hm => h (List.mem_cons_of_mem _ hm)
    simp only [List.cons_append, splitOnChar, if_neg ha, List.append_eq, ih t has]

theorem splitOnChar_joinWith (sep : Char) :
    ∀ chunks : List (List Char), chunks ≠ [] → (∀ c ∈ chunks, sep ∉ c) →
      splitOnChar sep (joinWith sep chunks) = chunks := by
  intro chunks
  induction chunks with
  | nil => intro h; exact absurd rfl h
  | cons c rest ih =>
    intro _ hsep
    have hc : sep ∉ c := hsep c (List.mem_cons_self _ _)
    cases rest with
    | nil => simpa [joinWith] using splitOnChar_no_sep sep c hc
    | cons d rest2 =>
      have hrec := ih (by simp) fun x hx => hsep x (List.mem_cons_of_mem _ hx)
      simp only [joinWith, splitOnChar_append_sep sep c _ hc, hrec]

theorem specValidSteps_mem : ∀ (steps : List Nat) (t : Node),
    specValidSteps t steps = true → ∀ n ∈ steps, n = 1 ∨ n = 2 := by
  intro steps
  induction steps with
  | nil => intro t _ n hn; simp at hn
  | cons s rest ih =>
    intro t h n hn
    cases t with
    | var c => simp [specValidSteps] at h
    | const b => simp [specValidSteps] at h
    | neg x =>
      match s, h, hn with
      | 1, h, hn =>
        rcases List.mem_cons.mp hn with hn2 | hn2
        · exact Or.inl hn2
        · exact ih x (by simpa [specValidSteps] using h) n hn2
    | bin op l r =>
      match s, h, hn with
      | 1, h, hn =>
        rcases List.mem_cons.mp hn with hn2 | hn2
        · exact Or.inl hn2
        · exact ih l (by simpa [specValidSteps] using h) n hn2
      | 2, h, hn =>
        rcases List.mem_cons.mp hn with hn2 | hn2
        · exact Or.inr hn2
        · exact ih r (by simpa [specValidSteps] using h) n hn2

theorem posSteps_encodeSteps (steps : List Nat)
    (hmem : ∀ n ∈ steps, n = 1 ∨ n = 2) (hne : steps ≠ []) :
    posSteps (encodeSteps steps) = steps.map some := by
  unfold posSteps encodeSteps
  have hdata : (String.mk (joinWith '.'
      (steps.map fun n => [Char.ofNat (48 + n)]))).data
      = joinWith '.' (steps.map fun n => [Char.ofNat (48 + n)]) := rfl
  rw [hdata, splitOnChar_joinWith]
  · rw [List.map_map]
    apply List.map_congr_left
    intro n hn
    rcases hmem n hn with h1 | h1 <;> subst h1 <;> decide
  · simpa using hne
  · intro c hcm
    simp only [List.mem_map] at hcm
    obtain ⟨n, hn, rfl⟩ := hcm
    rcases hmem n hn with h1 | h1 <;> subst h1 <;> decide

theorem calcSteps_replay : ∀ (steps : List Nat) (t : Node) (p : Int),
    specValidSteps t steps = true →
    PolarityCalculator.calcSteps t (steps.map some) p = p * replaySign t steps := by
  intro steps
  induction steps with
  | nil => intro t p _; simp [PolarityCalculator.calcSteps, replaySign]
  | cons s rest ih =>
    intro t p h
    cases t with
    | var c => simp [specValidSteps] at h
    | const b => simp [specValidSteps] at h
    | neg x =>
      match s, h with
      | 1, h =>
        have hv : specValidSteps x rest = true := by simpa [specValidSteps] using h
        simp only [List.map_cons, PolarityCalculator.calcSteps, replaySign, ih x (-p) hv]
        ring
    | bin op l r =>
      match s, h with
      | 1, h =>
        cases op with
        | impl =>
          have hv : specValidSteps l rest = true := by simpa [specValidSteps] using h
          simp [List.map_cons, PolarityCalculator.calcSteps, replaySign,
            ih l (-p) hv]
        | conj =>
          have hv : specValidSteps l rest = true := by simpa [specValidSteps] using h
          simp [List.map_cons, PolarityCalculator.calcSteps, replaySign, ih l p hv]
        | disj =>
          have hv : specValidSteps l rest = true := by simpa [specValidSteps] using h
          simp [List.map_cons, PolarityCalculator.calcSteps, replaySign, ih l p hv]
        | equiv =>
          have hv : specValidSteps l rest = true := by simpa [specValidSteps] using h
          simp [List.map_cons, PolarityCalculator.calcSteps, replaySign, ih l p hv]
      | 2, h =>
        have hv : specValidSteps r rest = true := by simpa [specValidSteps] using h
        have h21 : (some 2 : Option Nat) ≠ some 1 := by decide
        cases op <;>
          simp only [List.map_cons, PolarityCalculator.calcSteps, replaySign,
            if_neg h21, ih r p hv]

theorem replaySign_nil (t : Node) : replaySign t [] = 1 := by
  cases t with
  | var c => rfl
  | const b => rfl
  | neg x => rfl
  | bin op l r => cases op <;> rfl

theorem replaySign_pm : ∀ (steps : List Nat) (t : Node),
    replaySign t steps = 1 ∨ replaySign t steps = -1 := by
  intro steps
  induction steps with
  | nil => intro t; left; exact replaySign_nil t
  | cons s rest ih =>
    intro t
    cases t with
    | var c => left; rfl
    | const b => left; rfl
    | neg x =>
      match s with
      | 0 => left; rfl
      | 1 =>
        rcases ih x with h | h <;> simp [replaySign, h]
      | n + 2 => left; rfl
    | bin op l r =>
      match s with
      | 0 => left; cases op <;> rfl
      | 1 =>
        cases op <;> rcases ih l with h | h <;> simp [replaySign, h]
      | 2 =>
        cases op <;> rcases ih r with h | h <;> simp [replaySign, h]
      | n + 3 => left; cases op <;> rfl

/-- C8: for every formula and every valid position in it,
`PolarityCalculator.calculatePolarity` returns exactly the sign obtained by
replaying the root-to-node path starting at `+1`, flipping the sign on
entering the left child of a `→` and on entering the operand of a `¬` and
preserving it otherwise; that sign is always `+1` or `-1`, never a third
("mixed") value. (The wrapping `calculate` method is broken in the source —
see the section comment — so the verified computation is the path replay
itself.) -/
theorem c8_polarity_path (t : Node) (steps : List Nat)
    (h : specValidSteps t steps = true) :
    PolarityCalculator.calculatePolarity t (encodeSteps steps) = replaySign t steps
    ∧ (replaySign t steps = 1 ∨ replaySign t steps = -1) := by
  refine ⟨?_, replaySign_pm steps t⟩
  cases steps with
  | nil =>
    have he : encodeSteps [] = "" := rfl
    rw [he, replaySign_nil]
    simp [PolarityCalculator.calculatePolarity]
  | cons s rest =>
    have hmem := specValidSteps_mem (s :: rest) t h
    have hne : encodeSteps (s :: rest) ≠ "" := by
      rcases hmem s (by simp) with h1 | h1 <;> subst h1 <;>
        simp [encodeSteps, joinWith, String.ext_iff] <;> cases rest <;>
        simp [joinWith]
    simp only [PolarityCalculator.calculatePolarity, if_neg hne]
    rw [posSteps_encodeSteps _ hmem (by simp)]
    simpa using calcSteps_replay (s :: rest) t 1 h

/-- C8 witness: the path-replay theorem applied at the formula `¬a` and the
valid position `1`, where the polarity is `-1` (negative). -/
theorem c8_polarity_path_witness :
    (PolarityCalculator.calculatePolarity (.neg (.var 'a')) (encodeSteps [1])
        = replaySign (.neg (.var 'a')) [1]
      ∧ (replaySign (.neg (.var 'a')) [1] = 1
          ∨ replaySign (.neg (.var 'a')) [1] = -1))
    ∧ replaySign (.neg (.var 'a')) [1] = -1 :=
  ⟨c8_polarity_path (.neg (.var 'a')) [1] (by decide), by decide⟩

/-! ## Tseytin transformer (tseytin.js)

The transformer names subformulas in right-to-left post-order, reusing a
name for structurally identical subtrees (`JSON.stringify` equality), but
looks names up again by object identity (`nameMap.get(formula.left)`).
Since the parse tree shares no nodes, object identity is modelled by the
pair (position, subtree): a lookup hits exactly when that position holds
the first structural occurrence of the subtree. A lookup miss on a node
that is not a bare literal makes `literalToString` return the node object
itself, which later throws in the literal sort (or, for a top-level
constant, yields an `"[object Object]"` pseudo-clause); both are modelled
as `none`. -/

namespace TseytinTransformer

/-- A position (path of child indices) inside the tree built by
`buildTree`; used as the identity of a node object. -/
abbrev Pos := List Nat

/-- `TseytinTransformer.needsName`: binary nodes, and unary nodes whose
operand is neither a variable nor a constant. -/
def needsName : Node → Bool
  | .bin _ _ _ => true
  | .neg x =>
    match x with
    | .var _ => false
    | .const _ => false
    | _ => true
  | _ => false

/-- All subtree occurrences with their positions in the right-to-left
post-order of `traverseTreeInSpecifiedOrder` (children from rightmost to
leftmost, then the node itself; leaves included). -/
def subNodesAux : Node → Pos → List (Pos × Node)
  | .var c, p => [(p, .var c)]
  | .const b, p => [(p, .const b)]
  | .neg x, p => subNodesAux x (p ++ [1]) ++ [(p, .neg x)]
  | .bin op l r, p =>
    subNodesAux r (p ++ [2]) ++ subNodesAux l (p ++ [1]) ++ [(p, .bin op l r)]

/-- The `visited` set of the traversal: keep only the first occurrence of
each subtree, compared by structural equality. -/
def dedupByNode : List (Pos × Node) → List Node → List (Pos × Node)
  | [], _ => []
  | e :: rest, seen =>
    if e.2 ∈ seen then dedupByNode rest seen
    else e :: dedupByNode rest (seen ++ [e.2])

/-- The ordered list of named subformulas: first occurrences in the
specified order, filtered to those that need a name. -/
def orderedNamed (φ : Node) : List (Pos × Node) :=
  (dedupByNode (subNodesAux φ []) []).filter fun e => needsName e.2

/-- Decimal digit characters of a natural number (fuelled; any fuel above
the number reproduces the JavaScript rendering of `i` in `n${i}`). -/
def natDigitsAux : Nat → Nat → List Char
  | 0, _ => []
  | fuel + 1, n =>
    if n < 10 then [Char.ofNat (48 + n)]
    else natDigitsAux fuel (n / 10) ++ [Char.ofNat (48 + n % 10)]

/-- Decimal digits of `n`. -/
def natDigits (n : Nat) : List Char := natDigitsAux (n + 1) n

/-- The fresh auxiliary name `n0, n1, …` for the i-th named subformula. -/
def nameLit (i : Nat) : List Char := 'n' :: natDigits i

/-- `nameMap.get` by object identity: the key is the (position, subtree)
pair, and the value is the name of its index in the named list. -/
def lookupNameAux : List (Pos × Node) → Nat → Pos × Node → Option (List Char)
  | [], _, _ => none
  | e :: rest, i, key =>
    if e = key then some (nameLit i) else lookupNameAux rest (i + 1) key

/-- Name lookup over the whole named list (indices start at 0). -/
def lookupName (named : List (Pos × Node)) (key : Pos × Node) :
    Option (List Char) :=
  lookupNameAux named 0 key

/-- `TseytinTransformer.literalToString` on a node: a variable renders as
its name, a negated variable as `-x`; any other node is returned as the
object itself — modelled as `none`. -/
def literalToString : Node → Option (List Char)
  | .var c => some [c]
  | .neg (.var c) => some ['-', c]
  | _ => none

/-- `nameMap.get(child) || child` followed by `literalToString`: the name
when the identity lookup hits, the literal text otherwise. -/
def refM (named : List (Pos × Node)) (key : Pos × Node) : Option (List Char) :=
  match lookupName named key with
  | some nm => some nm
  | none => literalToString key.2

/-- `TseytinTransformer.negateLiteral` on a rendered literal. -/
def negLitT (l : List Char) : List Char :=
  if l.head? = some '-' then l.tail else '-' :: l

/-- `TseytinTransformer.defineVariable`: the per-operator defining clauses
(single-directional except for `↔`). -/
def defineVariable (nm : List Char) (pos : Pos) (sub : Node)
    (named : List (Pos × Node)) : Option (List (List (List Char))) :=
  match sub with
  | .neg x => do
    let xr ← refM named (pos ++ [1], x)
    pure [['-' :: nm, negLitT xr], [nm, xr]]
  | .bin op l r => do
    let L ← refM named (pos ++ [1], l)
    let R ← refM named (pos ++ [2], r)
    match op with
    | .conj => pure [[negLitT L, negLitT R, nm]]
    | .disj => pure [[L, R, '-' :: nm]]
    | .impl => pure [[R, negLitT L, '-' :: nm]]
    | .equiv =>
      pure [[negLitT L, R, '-' :: nm], [L, negLitT R, '-' :: nm],
        [L, R, nm], [negLitT L, negLitT R, nm]]
  | _ => pure []

/-- The defining-clause generation loop of `transform` (each named
subformula in order, with its index-derived name). -/
def genList (l : List (Pos × Node)) (i : Nat) (named : List (Pos × Node)) :
    Option (List (List (List Char))) :=
  match l with
  | [] => some []
  | (pos, sub) :: rest => do
    let cs ← defineVariable (nameLit i) pos sub named
    let more ← genList rest (i + 1) named
    pure (cs ++ more)

/-- The trailing unit literal: the top name when the root is named, else
the root's own literal text. -/
def topLit (φ : Node) (named : List (Pos × Node)) : Option (List Char) :=
  match lookupName named ([], φ) with
  | some nm => some nm
  | none => literalToString φ

/-- Test for `/^n\d+$/`. -/
def isNName (s : List Char) : Bool :=
  match s with
  | 'n' :: rest => !rest.isEmpty && rest.all Char.isDigit
  | _ => false

/-- `literal.startsWith('-') ? literal.slice(1) : literal`. -/
def stripDash (s : List Char) : List Char :=
  if s.head? = some '-' then s.tail else s

/-- Lexicographic comparison result in `localeCompare` style. -/
def lexCmp (a b : List Char) : Int :=
  if a = b then 0 else if charListLe a b then -1 else 1

/-- `TseytinTransformer.sortLiteralsAlphabetically`'s comparator: base
variables alphabetically with `n`-numbered names after plain variables and
compared numerically among themselves; for equal bases the positive
literal precedes the negated one. -/
def tseytinCmp (a b : List Char) : Int :=
  let va := stripDash a
  let vb := stripDash b
  if va ≠ vb then
    if isNName va ≠ isNName vb then (if isNName va then 1 else -1)
    else if isNName va && isNName vb then
      (digitsToNat va.tail : Int) - digitsToNat vb.tail
    else lexCmp va vb
  else
    if a.head? = some '-' ∧ b.head? ≠ some '-' then 1
    else if a.head? ≠ some '-' ∧ b.head? = some '-' then -1
    else 0

/-- The stable literal sort (JavaScript `Array.prototype.sort` is stable). -/
def sortLits (c : List (List Char)) : List (List Char) :=
  insertionSortB (fun a b => decide (tseytinCmp a b ≤ 0)) c

/-- `TseytinTransformer.removeRedundantClauses`: keep the first occurrence
of each clause under its canonical sorted form (the join-by-comma key of
the source distinguishes exactly the sorted literal lists, since literals
contain no commas). -/
def dedupSortedAux : List (List (List Char)) → List (List (List Char)) →
    List (List (List Char))
  | [], acc => acc
  | c :: rest, acc =>
    let sc := sortLits c
    if sc ∈ acc then dedupSortedAux rest acc
    else dedupSortedAux rest (acc ++ [sc])

/-- The auxiliary-variable report entries `{variable, represents}`. -/
def auxEntries (l : List (Pos × Node)) (i : Nat) : List (List Char × String) :=
  match l with
  | [] => []
  | (_, sub) :: rest => (nameLit i, Formatter.toText sub) :: auxEntries rest (i + 1)

/-- Result record of `TseytinTransformer.transform` (the `cnfFormula`
rendering is omitted; `clauses` is the final sorted, deduplicated list). -/
structure TransformResult where
  auxVariables : List (List Char × String)
  clauses : List (List (List Char))
  formattedResult : List Char
deriving DecidableEq

/-- `TseytinTransformer.transform`. -/
def transform (φ : Node) : Option TransformResult := do
  let named := orderedNamed φ
  let defs ← genList named 0 named
  let top ← topLit φ named
  let all := defs ++ [[top]]
  let unique := dedupSortedAux all []
  let formatted := unique.map sortLits
  pure ⟨auxEntries named 0, formatted,
    joinWith ';' (formatted.map fun c => '(' :: (joinWith ',' c ++ [')']))⟩

end TseytinTransformer

/-- Truth of a rendered literal under an assignment of literal base names:
a leading `-` negates. -/
def litTrue (σ : List Char → Bool) (l : List Char) : Bool :=
  if l.head? = some '-' then !(σ l.tail) else σ l

/-- Truth of a clause: some literal is true. -/
def clauseTrue (σ : List Char → Bool) (c : List (List Char)) : Bool :=
  c.any (litTrue σ)

/-! ## Satisfiability semantics of the Tseytin output -/

namespace TseytinTransformer

theorem natDigitsAux_stable : ∀ (n f f2 : Nat), n < f → n < f2 →
    natDigitsAux f n = natDigitsAux f2 n := by
  intro n
  induction n using Nat.strong_induction_on with
  | _ n ih =>
    intro f f2 hf hf2
    match f, hf, f2, hf2 with
    | g + 1, hf, g2 + 1, hf2 =>
      by_cases h10 : n < 10
      · simp [natDigitsAux, h10]
      · have hdiv : n / 10 < n := Nat.div_lt_self (by omega) (by omega)
        have h1 : n / 10 < g := by omega
        have h2 : n / 10 < g2 := by omega
        simp only [natDigitsAux, if_neg h10]
        rw [ih (n / 10) hdiv g g2 h1 h2]

theorem natDigits_eq (n : Nat) :
    natDigits n = if n < 10 then [Char.ofNat (48 + n)]
      else natDigits (n / 10) ++ [Char.ofNat (48 + n % 10)] := by
  by_cases h10 : n < 10
  · simp [natDigits, natDigitsAux, h10]
  · have hdiv : n / 10 < n := Nat.div_lt_self (by omega) (by omega)
    rw [if_neg h10]
    have step : natDigits n
        = natDigitsAux n (n / 10) ++ [Char.ofNat (48 + n % 10)] := by
      simp only [natDigits, natDigitsAux, if_neg h10]
    rw [step, natDigitsAux_stable (n / 10) n (n / 10 + 1) hdiv (by omega)]
    rfl

theorem natDigits_ne_nil (n : Nat) : natDigits n ≠ [] := by
  rw [natDigits_eq]
  split <;> simp

theorem charOfNat_digit_inj {a b : Nat} (ha : a < 10) (hb : b < 10)
    (h : Char.ofNat (48 + a) = Char.ofNat (48 + b)) : a = b := by
  interval_cases a <;> interval_cases b <;> first | rfl | exact absurd h (by decide)

theorem natDigits_inj : ∀ m n : Nat, natDigits m = natDigits n → m = n := by
  intro m
  induction m using Nat.strong_induction_on with
  | _ m ih =>
    intro n h
    have hM := natDigits_eq m
    have hN := natDigits_eq n
    by_cases hm : m < 10 <;> by_cases hn : n < 10
    · rw [if_pos hm] at hM
      rw [if_pos hn] at hN
      rw [hM, hN] at h
      exact charOfNat_digit_inj hm hn (List.singleton_injective h)
    · rw [if_pos hm] at hM
      rw [if_neg hn] at hN
      rw [hM, hN] at h
      have : (1 : Nat) = (natDigits (n / 10)).length + 1 := by
        simpa using congrArg List.length h
      exact absurd (List.length_eq_zero.mp (by omega))
        (natDigits_ne_nil (n / 10))
    · rw [if_neg hm] at hM
      rw [if_pos hn] at hN
      rw [hM, hN] at h
      have : (natDigits (m / 10)).length + 1 = 1 := by
        simpa using congrArg List.length h
      exact absurd (List.length_eq_zero.mp (by omega))
        (natDigits_ne_nil (m / 10))
    · rw [if_neg hm] at hM
      rw [if_neg hn] at hN
      rw [hM, hN] at h
      have h2 := congrArg List.reverse h
      simp only [List.reverse_append, List.reverse_singleton,
        List.singleton_append] at h2
      have hlast : Char.ofNat (48 + m % 10) = Char.ofNat (48 + n % 10) :=
        (List.cons.injEq _ _ _ _ ▸ h2).1
      have hinit : natDigits (m / 10) = natDigits (n / 10) := by
        have := (List.cons.injEq _ _ _ _ ▸ h2).2
        simpa using congrArg List.reverse this
      have hmod : m % 10 = n % 10 :=
        charOfNat_digit_inj (Nat.mod_lt _ (by omega)) (Nat.mod_lt _ (by omega))
          hlast
      have hdivlt : m / 10 < m := Nat.div_lt_self (by omega) (by omega)
      have hdiv : m / 10 = n / 10 := ih (m / 10) hdivlt (n / 10) hinit
      omega

theorem nameLit_inj {i j : Nat} (h : nameLit i = nameLit j) : i = j :=
  natDigits_inj i j (by simpa [nameLit] using h)

theorem nameLit_length (i : Nat) : 2 ≤ (nameLit i).length := by
  have := natDigits_ne_nil i
  simp only [nameLit, List.length_cons]
  cases hd : natDigits i with
  | nil => exact absurd hd this
  | cons a t => simp [hd]

/-- Recovering the subformula a name denotes: the named list searched by
name (proof device for constructing a satisfying assignment). -/
def lookupSub : List (Pos × Node) → Nat → List Char → Option Node
  | [], _, _ => none
  | e :: rest, i, s =>
    if s = nameLit i then some e.2 else lookupSub rest (i + 1) s

/-- The satisfying assignment for the produced CNF given an assignment `v`
of the formula: an auxiliary name takes the truth value of the subformula
it names; a single-character literal takes the variable's value. -/
def tseytinAssign (v : Char → Bool) (named : List (Pos × Node))
    (s : List Char) : Bool :=
  match lookupSub named 0 s with
  | some ψ => evalNode v ψ
  | none =>
    match s with
    | [c] => v c
    | _ => false

theorem lookupSub_nameLit : ∀ (l : List (Pos × Node)) (k i : Nat),
    lookupSub l k (nameLit (k + i)) = (l.get? i).map (·.2) := by
  intro l
  induction l with
  | nil => intro k i; rfl
  | cons e rest ihl =>
    intro k i
    cases i with
    | zero => simp [lookupSub]
    | succ i2 =>
      have hne : nameLit (k + (i2 + 1)) ≠ nameLit k := fun hEq => by
        have := nameLit_inj hEq
        omega
      simp only [lookupSub, if_neg hne, List.get?]
      have : k + (i2 + 1) = (k + 1) + i2 := by omega
      rw [this, ihl (k + 1) i2]

theorem lookupSub_single : ∀ (l : List (Pos × Node)) (k : Nat) (c : Char),
    lookupSub l k [c] = none := by
  intro l
  induction l with
  | nil => intro k c; rfl
  | cons e rest ihl =>
    intro k c
    have hne : ([c] : List Char) ≠ nameLit k := fun hEq => by
      have := congrArg List.length hEq
      have := nameLit_length k
      simp at *
      omega
    simp only [lookupSub, if_neg hne, ihl]

theorem tseytinAssign_nameLit (v : Char → Bool) (named : List (Pos × Node))
    (i : Nat) (key : Pos × Node) (hget : named.get? i = some key) :
    tseytinAssign v named (nameLit i) = evalNode v key.2 := by
  unfold tseytinAssign
  have h2 := lookupSub_nameLit named 0 i
  simp only [Nat.zero_add] at h2
  rw [h2, hget]
  rfl

theorem tseytinAssign_single (v : Char → Bool) (named : List (Pos × Node))
    (c : Char) : tseytinAssign v named [c] = v c := by
  unfold tseytinAssign
  rw [lookupSub_single]

theorem lookupNameAux_sound : ∀ (l : List (Pos × Node)) (k : Nat)
    (key : Pos × Node) (nm : List Char), lookupNameAux l k key = some nm →
    ∃ i, l.get? i = some key ∧ nm = nameLit (k + i) := by
  intro l
  induction l with
  | nil => intro k key nm h; simp [lookupNameAux] at h
  | cons e rest ihl =>
    intro k key nm h
    by_cases he : e = key
    · refine ⟨0, by simp [he], ?_⟩
      simp [lookupNameAux, he] at h
      simp [← h]
    · simp only [lookupNameAux, if_neg he] at h
      obtain ⟨i, hi, hnm⟩ := ihl (k + 1) key nm h
      exact ⟨i + 1, by simpa using hi, by rw [hnm]; congr 1; omega⟩

theorem nameLit_head : (nameLit i).head? = some 'n' := rfl

/-- Soundness of a child reference: when the reference renders, its literal
truth under the constructed assignment is the child subformula's truth
value, and its negation's is the complement. -/
theorem refM_true (v : Char → Bool) (named : List (Pos × Node))
    (key : Pos × Node) (s : List Char)
    (hnd : ∀ c ∈ varsOf key.2, c ≠ '-')
    (h : refM named key = some s) :
    litTrue (tseytinAssign v named) s = evalNode v key.2
    ∧ litTrue (tseytinAssign v named) (negLitT s)
      = !(evalNode v key.2) := by
  unfold refM at h
  cases hl : lookupName named key with
  | some nm =>
    rw [hl] at h
    obtain ⟨i, hi, hnm⟩ := lookupNameAux_sound named 0 key nm hl
    have hs : s = nameLit i := by
      cases h
      simpa using hnm
    subst hs
    have hassign : tseytinAssign v named (nameLit i) = evalNode v key.2 :=
      tseytinAssign_nameLit v named i key hi
    constructor
    · simp [litTrue, nameLit_head, hassign]
    · have hneg : negLitT (nameLit i) = '-' :: nameLit i := by
        simp [negLitT, nameLit_head]
      rw [hneg]
      simp [litTrue, hassign]
  | none =>
    rw [hl] at h
    match hk : key.2, h with
    | .var c, h =>
      have hc : c ≠ '-' := hnd c (by rw [hk]; simp [varsOf])
      have hs : s = [c] := by simpa [literalToString] using h.symm
      subst hs
      constructor
      · simp [litTrue, hc, tseytinAssign_single, evalNode]
      · simp [negLitT, litTrue, hc, tseytinAssign_single, evalNode]
    | .neg (.var c), h =>
      have hs : s = ['-', c] := by simpa [literalToString] using h.symm
      subst hs
      constructor
      · simp [litTrue, tseytinAssign_single, evalNode]
      · simp [negLitT, litTrue, hnd c (by rw [hk]; simp [varsOf]),
          tseytinAssign_single, evalNode]

end TseytinTransformer

namespace TseytinTransformer

theorem defineVariable_true (v : Char → Bool) (named : List (Pos × Node))
    (j : Nat) (pos : Pos) (sub : Node)
    (hget : named.get? j = some (pos, sub))
    (hnd : ∀ c ∈ varsOf sub, c ≠ '-')
    (cls : List (List (List Char)))
    (h : defineVariable (nameLit j) pos sub named = some cls) :
    ∀ c ∈ cls, clauseTrue (tseytinAssign v named) c = true := by
  have hname : tseytinAssign v named (nameLit j) = evalNode v sub := by
    simpa using tseytinAssign_nameLit v named j (pos, sub) hget
  have hLitName : litTrue (tseytinAssign v named) (nameLit j) = evalNode v sub := by
    simp [litTrue, nameLit_head, hname]
  have hLitNegName : litTrue (tseytinAssign v named) ('-' :: nameLit j)
      = !(evalNode v sub) := by
    simp [litTrue, hname]
  cases sub with
  | var c0 =>
    simp only [defineVariable, Option.pure_def, Option.some.injEq] at h
    subst h
    intro c hc
    simp at hc
  | const b =>
    simp only [defineVariable, Option.pure_def, Option.some.injEq] at h
    subst h
    intro c hc
    simp at hc
  | neg x =>
    cases hr : refM named (pos ++ [1], x) with
    | none => rw [defineVariable, hr] at h; simp at h
    | some xr =>
      rw [defineVariable, hr] at h
      simp only [bind, Option.bind, Option.pure_def, Option.some.injEq] at h
      subst h
      obtain ⟨h1, h2⟩ := refM_true v named (pos ++ [1], x) xr
        (fun c hcv => hnd c (by simpa [varsOf] using hcv)) hr
      intro c hc
      simp only [List.mem_cons, List.not_mem_nil, or_false] at hc
      rcases hc with rfl | rfl
      · cases hx : evalNode v x <;>
          simp [clauseTrue, hLitNegName, h2, evalNode, hx]
      · cases hx : evalNode v x <;>
          simp [clauseTrue, hLitName, h1, evalNode, hx]
  | bin op l r =>
    cases hL : refM named (pos ++ [1], l) with
    | none => rw [defineVariable, hL] at h; simp at h
    | some Lr =>
      cases hR : refM named (pos ++ [2], r) with
      | none => rw [defineVariable, hL, hR] at h; simp at h
      | some Rr =>
        rw [defineVariable, hL, hR] at h
        obtain ⟨hL1, hL2⟩ := refM_true v named (pos ++ [1], l) Lr
          (fun c hcv => hnd c (by simp [varsOf]; exact Or.inl hcv)) hL
        obtain ⟨hR1, hR2⟩ := refM_true v named (pos ++ [2], r) Rr
          (fun c hcv => hnd c (by simp [varsOf]; exact Or.inr hcv)) hR
        cases op with
        | conj =>
          simp only [bind, Option.bind, Option.pure_def, Option.some.injEq] at h
          subst h
          intro c hc
          simp only [List.mem_cons, List.not_mem_nil, or_false] at hc
          rcases hc with rfl
          cases hl : evalNode v l <;> cases hr : evalNode v r <;>
            simp [clauseTrue, hLitName, hL2, hR2, evalNode, hl, hr]
        | disj =>
          simp only [bind, Option.bind, Option.pure_def, Option.some.injEq] at h
          subst h
          intro c hc
          simp only [List.mem_cons, List.not_mem_nil, or_false] at hc
          rcases hc with rfl
          cases hl : evalNode v l <;> cases hr : evalNode v r <;>
            simp [clauseTrue, hLitNegName, hL1, hR1, evalNode, hl, hr]
        | impl =>
          simp only [bind, Option.bind, Option.pure_def, Option.some.injEq] at h
          subst h
          intro c hc
          simp only [List.mem_cons, List.not_mem_nil, or_false] at hc
          rcases hc with rfl
          cases hl : evalNode v l <;> cases hr : evalNode v r <;>
            simp [clauseTrue, hLitNegName, hL2, hR1, evalNode, hl, hr]
        | equiv =>
          simp only [bind, Option.bind, Option.pure_def, Option.some.injEq] at h
          subst h
          intro c hc
          simp only [List.mem_cons, List.not_mem_nil, or_false] at hc
          rcases hc with rfl | rfl | rfl | rfl <;>
            cases hl : evalNode v l <;> cases hr : evalNode v r <;>
              simp [clauseTrue, hLitName, hLitNegName, hL1, hL2, hR1, hR2,
                evalNode, hl, hr]

theorem genList_true (v : Char → Bool) (named : List (Pos × Node))
    (hdash : ∀ e ∈ named, ∀ c ∈ varsOf e.2, c ≠ '-') :
    ∀ (l : List (Pos × Node)) (i : Nat) (cls : List (List (List Char))),
      (∀ j, named.get? (i + j) = l.get? j) →
      genList l i named = some cls →
      ∀ c ∈ cls, clauseTrue (tseytinAssign v named) c = true := by
  intro l
  induction l with
  | nil =>
    intro i cls _ h c hc
    simp only [genList, Option.some.injEq] at h
    subst h
    simp at hc
  | cons e rest ih =>
    intro i cls hsuf h c hc
    obtain ⟨pos, sub⟩ := e
    cases hd : defineVariable (nameLit i) pos sub named with
    | none => rw [genList, hd] at h; simp at h
    | some cs =>
      cases hg : genList rest (i + 1) named with
      | none => rw [genList, hd, hg] at h; simp at h
      | some more =>
        have hcls : cls = cs ++ more := by
          rw [genList, hd, hg] at h
          simpa using h.symm
        subst hcls
        have hget : named.get? i = some (pos, sub) := by
          simpa using hsuf 0
        rcases List.mem_append.mp hc with hc1 | hc2
        · have hmem : (pos, sub) ∈ named := List.get?_mem hget
          exact defineVariable_true v named i pos sub hget
            (fun c2 hc2v => hdash (pos, sub) hmem c2 hc2v) cs hd c hc1
        · refine ih (i + 1) more (fun j => ?_) hg c hc2
          have := hsuf (j + 1)
          rwa [show i + (j + 1) = i + 1 + j by omega] at this

theorem topLit_true (v : Char → Bool) (named : List (Pos × Node)) (φ : Node)
    (t : List Char) (hnd : ∀ c ∈ varsOf φ, c ≠ '-')
    (h : topLit φ named = some t) (hev : evalNode v φ = true) :
    clauseTrue (tseytinAssign v named) [t] = true := by
  unfold topLit at h
  cases hl : lookupName named ([], φ) with
  | some nm =>
    rw [hl] at h
    obtain ⟨i, hi, hnm⟩ := lookupNameAux_sound named 0 ([], φ) nm hl
    have ht2 : t = nameLit i := by cases h; simpa using hnm
    subst ht2
    have hassign : tseytinAssign v named (nameLit i) = evalNode v φ := by
      simpa using tseytinAssign_nameLit v named i ([], φ) hi
    simp [clauseTrue, litTrue, nameLit_head, hassign, hev]
  | none =>
    rw [hl] at h
    match hk : φ, h, hev, hnd with
    | .var c, h, hev, hnd =>
      have hs : t = [c] := by simpa [literalToString] using h.symm
      subst hs
      have hc : c ≠ '-' := hnd c (by simp [varsOf])
      simp only [evalNode] at hev
      simp [clauseTrue, litTrue, hc, tseytinAssign_single, hev]
    | .neg (.var c), h, hev, hnd =>
      have hs : t = ['-', c] := by simpa [literalToString] using h.symm
      subst hs
      simp only [evalNode] at hev
      simp [clauseTrue, litTrue, tseytinAssign_single]
      simpa using hev

theorem dedupSortedAux_mem : ∀ (cs acc : List (List (List Char)))
    (c2 : List (List Char)), c2 ∈ dedupSortedAux cs acc →
    c2 ∈ acc ∨ ∃ c0 ∈ cs, c2 = sortLits c0 := by
  intro cs
  induction cs with
  | nil => intro acc c2 h; exact Or.inl (by simpa [dedupSortedAux] using h)
  | cons c rest ih =>
    intro acc c2 h
    simp only [dedupSortedAux] at h
    by_cases hmem : sortLits c ∈ acc
    · rw [if_pos hmem] at h
      rcases ih acc c2 h with h2 | ⟨c0, hc0, rfl⟩
      · exact Or.inl h2
      · exact Or.inr ⟨c0, List.mem_cons_of_mem _ hc0, rfl⟩
    · rw [if_neg hmem] at h
      rcases ih (acc ++ [sortLits c]) c2 h with h2 | ⟨c0, hc0, rfl⟩
      · rcases List.mem_append.mp h2 with h3 | h3
        · exact Or.inl h3
        · exact Or.inr ⟨c, List.mem_cons_self _ _, by simpa using h3⟩
      · exact Or.inr ⟨c0, List.mem_cons_of_mem _ hc0, rfl⟩

end TseytinTransformer

theorem clauseTrue_perm (σ : List Char → Bool) {c c2 : List (List Char)}
    (h : List.Perm c c2) : clauseTrue σ c = clauseTrue σ c2 := by
  unfold clauseTrue
  rw [Bool.eq_iff_iff]
  simp only [List.any_eq_true]
  exact ⟨fun ⟨x, hx, hp⟩ => ⟨x, h.mem_iff.mp hx, hp⟩,
    fun ⟨x, hx, hp⟩ => ⟨x, h.mem_iff.mpr hx, hp⟩⟩

theorem subNodesAux_vars : ∀ (φ : Node) (p : TseytinTransformer.Pos)
    (e : TseytinTransformer.Pos × Node), e ∈ TseytinTransformer.subNodesAux φ p →
    ∀ c ∈ varsOf e.2, c ∈ varsOf φ := by
  intro φ
  induction φ with
  | var c0 =>
    intro p e he c hc
    simp [TseytinTransformer.subNodesAux] at he
    subst he
    simpa [varsOf] using hc
  | const b =>
    intro p e he c hc
    simp [TseytinTransformer.subNodesAux] at he
    subst he
    simp [varsOf] at hc
  | neg x ih =>
    intro p e he c hc
    simp only [TseytinTransformer.subNodesAux, List.mem_append,
      List.mem_singleton] at he
    rcases he with he | he
    · simpa [varsOf] using ih (p ++ [1]) e he c hc
    · subst he
      simpa [varsOf] using hc
  | bin op l r ihl ihr =>
    intro p e he c hc
    simp only [TseytinTransformer.subNodesAux, List.mem_append,
      List.mem_singleton] at he
    rcases he with (he | he) | he
    · exact by simp [varsOf]; exact Or.inr (ihr (p ++ [2]) e he c hc)
    · exact by simp [varsOf]; exact Or.inl (ihl (p ++ [1]) e he c hc)
    · subst he
      simpa [varsOf] using hc

theorem dedupByNode_mem : ∀ (l : List (TseytinTransformer.Pos × Node))
    (seen : List Node) (e : TseytinTransformer.Pos × Node),
    e ∈ TseytinTransformer.dedupByNode l seen → e ∈ l := by
  intro l
  induction l with
  | nil => intro seen e h; simpa [TseytinTransformer.dedupByNode] using h
  | cons x rest ih =>
    intro seen e h
    simp only [TseytinTransformer.dedupByNode] at h
    by_cases hm : x.2 ∈ seen
    · rw [if_pos hm] at h
      exact List.mem_cons_of_mem _ (ih _ e h)
    · rw [if_neg hm] at h
      rcases List.mem_cons.mp h with rfl | h2
      · exact List.mem_cons_self _ _
      · exact List.mem_cons_of_mem _ (ih _ e h2)

theorem orderedNamed_vars (φ : Node) (e : TseytinTransformer.Pos × Node)
    (he : e ∈ TseytinTransformer.orderedNamed φ) :
    ∀ c ∈ varsOf e.2, c ∈ varsOf φ := by
  have h1 : e ∈ TseytinTransformer.dedupByNode
      (TseytinTransformer.subNodesAux φ []) [] :=
    (List.mem_filter.mp he).1
  exact subNodesAux_vars φ [] e (dedupByNode_mem _ _ e h1)

/-- C1 (amended): one direction of the claimed equisatisfiability holds —
whenever the transformer produces genuine literal clauses for a well-formed
formula (all variables lowercase letters) and the formula is satisfiable,
the produced CNF clause set is satisfiable with the auxiliary names
existentially quantified. The converse direction is refuted by the
counterexample `a∧¬a` (the defining clauses are single-directional). -/
theorem c1_amended (φ : Node) (r : TseytinTransformer.TransformResult)
    (hwf : (varsOf φ).all (fun c => decide ('a' ≤ c ∧ c ≤ 'z')) = true)
    (ht : TseytinTransformer.transform φ = some r)
    (hsat : ∃ v : Char → Bool, evalNode v φ = true) :
    ∃ σ : List Char → Bool, ∀ c ∈ r.clauses, clauseTrue σ c = true := by
  obtain ⟨v, hv⟩ := hsat
  have hlower : ∀ c ∈ varsOf φ, 'a' ≤ c ∧ c ≤ 'z' := by
    intro c hcm
    have := (List.all_eq_true.mp hwf) c hcm
    simpa using this
  have hnd : ∀ c ∈ varsOf φ, c ≠ '-' := by
    intro c hcm hEq
    subst hEq
    exact absurd (hlower '-' hcm).1 (by decide)
  have hdash : ∀ e ∈ TseytinTransformer.orderedNamed φ,
      ∀ c ∈ varsOf e.2, c ≠ '-' :=
    fun e he c hcm => hnd c (orderedNamed_vars φ e he c hcm)
  refine ⟨TseytinTransformer.tseytinAssign v (TseytinTransformer.orderedNamed φ), ?_⟩
  intro c hc
  cases hgen : TseytinTransformer.genList (TseytinTransformer.orderedNamed φ) 0
      (TseytinTransformer.orderedNamed φ) with
  | none => rw [TseytinTransformer.transform, hgen] at ht; simp at ht
  | some defs =>
    cases htop : TseytinTransformer.topLit φ (TseytinTransformer.orderedNamed φ) with
    | none => rw [TseytinTransformer.transform, hgen, htop] at ht; simp at ht
    | some top =>
      rw [TseytinTransformer.transform, hgen, htop] at ht
      simp only [bind, Option.bind, Option.pure_def, Option.some.injEq] at ht
      have hclauses : r.clauses = (TseytinTransformer.dedupSortedAux
          (defs ++ [[top]]) []).map TseytinTransformer.sortLits := by
        rw [← ht]
      rw [hclauses] at hc
      obtain ⟨c1, hc1, rfl⟩ := List.mem_map.mp hc
      rcases TseytinTransformer.dedupSortedAux_mem _ _ _ hc1 with habs | ⟨c0, hc0, rfl⟩
      · simp at habs
      · have hperm : List.Perm
            (TseytinTransformer.sortLits (TseytinTransformer.sortLits c0)) c0 :=
          (perm_insertionSortB _ _).trans (perm_insertionSortB _ _)
        rw [clauseTrue_perm _ hperm]
        rcases List.mem_append.mp hc0 with hdefm | htopm
        · exact TseytinTransformer.genList_true v (TseytinTransformer.orderedNamed φ) hdash
            (TseytinTransformer.orderedNamed φ) 0 defs (fun j => by simp) hgen
            c0 hdefm
        · have hc0t : c0 = [top] := by simpa using htopm
          subst hc0t
          exact TseytinTransformer.topLit_true v _ φ top hnd htop hv

/-- C1 counterexample: `a∧¬a` is unsatisfiable, yet its produced CNF —
`(a,-a,n0);(n0)` — is satisfiable (e.g. with every literal base true): the
defining clauses are single-directional, so the claimed equisatisfiability
fails in the CNF-to-formula direction. -/
theorem c1_counterexample :
    (TseytinTransformer.transform (.bin .conj (.var 'a') (.neg (.var 'a')))).map
        TseytinTransformer.TransformResult.clauses
      = some [[['a'], ['-', 'a'], ['n', '0']], [['n', '0']]]
    ∧ (¬ ∃ v : Char → Bool,
        evalNode v (.bin .conj (.var 'a') (.neg (.var 'a'))) = true)
    ∧ (∀ c ∈ [[['a'], ['-', 'a'], ['n', '0']], [['n', '0']]],
        clauseTrue (fun _ => true) c = true) := by
  refine ⟨by decide, ?_, by decide⟩
  rintro ⟨v, hv⟩
  simp [evalNode] at hv

/-- C1 witness: the amended theorem applied to the satisfiable formula
`a∧b`, whose transform succeeds with clauses `(-a,-b,n0);(n0)`. -/
theorem c1_amended_witness :
    ∃ σ : List Char → Bool,
      ∀ c ∈ [[['-', 'a'], ['-', 'b'], ['n', '0']], [['n', '0']]],
        clauseTrue σ c = true := by
  obtain ⟨σ, hσ⟩ := c1_amended (.bin .conj (.var 'a') (.var 'b'))
    ⟨[(['n', '0'], "(a∧b)")],
     [[['-', 'a'], ['-', 'b'], ['n', '0']], [['n', '0']]],
     "(-a,-b,n0);(n0)".data⟩
    (by decide) (by decide) ⟨fun _ => true, rfl⟩
  exact ⟨σ, hσ⟩

/-! ## Parser (parser.js) -/

namespace Parser

/-- The token kinds produced by `Parser.tokenize`. -/
inductive Tok
  | lparen
  | rparen
  | negTok
  | andTok
  | orTok
  | implTok
  | equivTok
  | varTok (c : Char)
  | constTok (b : Bool)
deriving DecidableEq

/-- One step of the character switch of `Parser.tokenize`: `none` is the
fatal invalid-character error, `some none` skips a space, `some (some t)`
emits a token. -/
def tokChar (c : Char) : Option (Option Tok) :=
  if c = ' ' then some none
  else if c = '(' then some (some .lparen)
  else if c = ')' then some (some .rparen)
  else if c = '¬' then some (some .negTok)
  else if c = '∧' then some (some .andTok)
  else if c = '∨' then some (some .orTok)
  else if c = '→' then some (some .implTok)
  else if c = '↔' then some (some .equivTok)
  else if c = '⊤' then some (some (.constTok true))
  else if c = '⊥' then some (some (.constTok false))
  else if 'a' ≤ c ∧ c ≤ 'z' then some (some (.varTok c))
  else none

/-- `Parser.tokenize`: character-by-character, failing on the first invalid
character. -/
def tokenize : List Char → Option (List Tok)
  | [] => some []
  | c :: rest =>
    match tokChar c with
    | none => none
    | some none => tokenize rest
    | some (some t) => (tokenize rest).map (t :: ·)

/-- The mutually recursive descent of `Parser.parse`, presented as one
fuelled function over parser tiers. The `…Loop` tiers are the `while`
loops of the left-associative chains, carrying the node built so far. The
fuel only bounds the call depth; `parse` below passes an ample bound, so
the `0` case is never reached on real inputs. -/
inductive PTier
  | formula
  | impl
  | disj
  | conj
  | negp
  | atom
  | formulaLoop (n : Node)
  | implLoop (n : Node)
  | disjLoop (n : Node)
  | conjLoop (n : Node)

/-- The parser engine: `formula` is an `↔`-chain of `impl`s, `impl` an
`→`-chain of `disj`s, `disj` an `∨`-chain of `conj`s, `conj` an `∧`-chain
of negations; negation is prefix right-recursive; an atom is a variable, a
constant, or a parenthesised formula (missing `)` or an unexpected token
fail). -/
def parseFn : Nat → PTier → List Tok → Option (Node × List Tok)
  | 0, _, _ => none
  | fuel + 1, tier, ts =>
    match tier with
    | .formula =>
      match parseFn fuel .impl ts with
      | none => none
      | some (n, ts2) => parseFn fuel (.formulaLoop n) ts2
    | .formulaLoop n =>
      match ts with
      | .equivTok :: rest =>
        match parseFn fuel .impl rest with
        | none => none
        | some (r, ts2) => parseFn fuel (.formulaLoop (.bin .equiv n r)) ts2
      | _ => some (n, ts)
    | .impl =>
      match parseFn fuel .disj ts with
      | none => none
      | some (n, ts2) => parseFn fuel (.implLoop n) ts2
    | .implLoop n =>
      match ts with
      | .implTok :: rest =>
        match parseFn fuel .disj rest with
        | none => none
        | some (r, ts2) => parseFn fuel (.implLoop (.bin .impl n r)) ts2
      | _ => some (n, ts)
    | .disj =>
      match parseFn fuel .conj ts with
      | none => none
      | some (n, ts2) => parseFn fuel (.disjLoop n) ts2
    | .disjLoop n =>
      match ts with
      | .orTok :: rest =>
        match parseFn fuel .conj rest with
        | none => none
        | some (r, ts2) => parseFn fuel (.disjLoop (.bin .disj n r)) ts2
      | _ => some (n, ts)
    | .conj =>
      match parseFn fuel .negp ts with
      | none => none
      | some (n, ts2) => parseFn fuel (.conjLoop n) ts2
    | .conjLoop n =>
      match ts with
      | .andTok :: rest =>
        match parseFn fuel .negp rest with
        | none => none
        | some (r, ts2) => parseFn fuel (.conjLoop (.bin .conj n r)) ts2
      | _ => some (n, ts)
    | .negp =>
      match ts with
      | .negTok :: rest =>
        match parseFn fuel .negp rest with
        | none => none
        | some (n, ts2) => some (.neg n, ts2)
      | _ => parseFn fuel .atom ts
    | .atom =>
      match ts with
      | .lparen :: rest =>
        match parseFn fuel .formula rest with
        | none => none
        | some (n, ts2) =>
          match ts2 with
          | .rparen :: ts3 => some (n, ts3)
          | _ => none
      | .varTok c :: rest => some (.var c, rest)
      | .constTok b :: rest => some (.const b, rest)
      | _ => none

/-- `Parser.parse`: tokenize, parse a formula, and reject trailing
tokens. The fuel bound is ample: the descent consumes a token at least
every six nested calls. -/
def parse (formula : String) : Option Node :=
  match tokenize formula.data with
  | none => none
  | some toks =>
    match parseFn (16 * toks.length + 16) .formula toks with
    | none => none
    | some (n, rest) => if rest.isEmpty then some n else none

end Parser

/-! ## Round-trip of formatting and parsing (claim C6) -/

/-- Well-formedness in the grammar's sense: every variable of the formula
is a single lowercase ASCII letter, the only variable characters the
tokenizer accepts. Every AST the parser produces satisfies it (proved
below). -/
def lowercaseVars (t : Node) : Bool :=
  (varsOf t).all fun c => decide ('a' ≤ c ∧ c ≤ 'z')

namespace Parser

/-- The token of a binary operator glyph. -/
def opTok : BinOp → Tok
  | .conj => .andTok
  | .disj => .orTok
  | .impl => .implTok
  | .equiv => .equivTok

/-- The token sequence of `Formatter.toText t`, mirroring its structure;
`tokenize` is shown below to return it on the rendered text. -/
def tokTree : Node → List Tok
  | .var c => [.varTok c]
  | .const b => [.constTok b]
  | .neg x =>
    .negTok :: (if x.isBinary then .lparen :: (tokTree x ++ [.rparen]) else tokTree x)
  | .bin op l r =>
    .lparen ::
      ((if l.isBinary then .lparen :: (tokTree l ++ [.rparen]) else tokTree l)
        ++ opTok op ::
          ((if r.isBinary then .lparen :: (tokTree r ++ [.rparen]) else tokTree r)
            ++ [.rparen]))

/-- The token sequence of `Formatter.addParenthesesIfNeeded x`. -/
def wrapToks (x : Node) : List Tok :=
  if x.isBinary then .lparen :: (tokTree x ++ [.rparen]) else tokTree x

theorem tokTree_neg (x : Node) : tokTree (.neg x) = .negTok :: wrapToks x := rfl

theorem tokTree_bin (op : BinOp) (l r : Node) :
    tokTree (.bin op l r)
      = .lparen :: (wrapToks l ++ opTok op :: (wrapToks r ++ [.rparen])) := rfl

theorem strData_append (a b : String) : (a ++ b).data = a.data ++ b.data := rfl

theorem tokenize_append : ∀ a b : List Char,
    tokenize (a ++ b) = (tokenize a).bind fun x => (tokenize b).map (x ++ ·) := by
  intro a b
  induction a with
  | nil =>
    cases hb : tokenize b <;> simp [tokenize, hb]
  | cons c rest ih =>
    cases hc : tokChar c with
    | none => simp [tokenize, hc]
    | some o =>
      cases o with
      | none => simp only [List.cons_append, List.append_eq, tokenize, hc, ih]
      | some t =>
        simp only [List.cons_append, List.append_eq, tokenize, hc, ih]
        cases hr : tokenize rest <;> cases hb : tokenize b <;> simp [hr, hb]

theorem tokChar_lower (c : Char) (h1 : 'a' ≤ c) (h2 : c ≤ 'z') :
    tokChar c = some (some (.varTok c)) := by
  have hs : c ≠ ' ' := fun hEq => by subst hEq; exact absurd h1 (by decide)
  have hlp : c ≠ '(' := fun hEq => by subst hEq; exact absurd h1 (by decide)
  have hrp : c ≠ ')' := fun hEq => by subst hEq; exact absurd h1 (by decide)
  have hn : c ≠ '¬' := fun hEq => by subst hEq; exact absurd h2 (by decide)
  have ha : c ≠ '∧' := fun hEq => by subst hEq; exact absurd h2 (by decide)
  have ho : c ≠ '∨' := fun hEq => by subst hEq; exact absurd h2 (by decide)
  have hi : c ≠ '→' := fun hEq => by subst hEq; exact absurd h2 (by decide)
  have he : c ≠ '↔' := fun hEq => by subst hEq; exact absurd h2 (by decide)
  have ht : c ≠ '⊤' := fun hEq => by subst hEq; exact absurd h2 (by decide)
  have hb : c ≠ '⊥' := fun hEq => by subst hEq; exact absurd h2 (by decide)
  simp [tokChar, hs, hlp, hrp, hn, ha, ho, hi, he, ht, hb, h1, h2]

theorem lowercaseVars_neg (x : Node) :
    lowercaseVars (.neg x) = lowercaseVars x := rfl

theorem lowercaseVars_bin (op : BinOp) (l r : Node) :
    lowercaseVars (.bin op l r) = (lowercaseVars l && lowercaseVars r) := by
  simp [lowercaseVars, varsOf, List.all_append]

theorem tokenize_glyph (op : BinOp) (cs : List Char) :
    tokenize ((Formatter.glyph op).data ++ cs)
      = (tokenize cs).map (opTok op :: ·) := by
  cases op <;> rfl

/-- The tokenizer applied to the parenthesised rendering of a node, given
its value on the plain rendering. -/
theorem tokenize_wrap (x : Node)
    (hx : tokenize (Formatter.toText x).data = some (tokTree x)) :
    tokenize (Formatter.addParenthesesIfNeeded x).data = some (wrapToks x) := by
  unfold Formatter.addParenthesesIfNeeded wrapToks
  by_cases hb : x.isBinary
  · rw [if_pos hb, if_pos hb]
    have hdata : (("(" ++ Formatter.toText x ++ ")") : String).data
        = '(' :: ((Formatter.toText x).data ++ [')']) := rfl
    rw [hdata]
    simp only [tokenize, show tokChar '(' = some (some Tok.lparen) from rfl]
    rw [tokenize_append, hx]
    simp [show tokenize [')'] = some [Tok.rparen] from rfl]
  · rw [if_neg hb, if_neg hb]; exact hx

/-- The tokenizer sends the formatter's rendering of a well-formed formula
to its token tree. -/
theorem tokenize_toText : ∀ t : Node, lowercaseVars t = true →
    tokenize (Formatter.toText t).data = some (tokTree t) := by
  intro t
  induction t with
  | var c =>
    intro h
    have hc : ('a' ≤ c ∧ c ≤ 'z') := by simpa [lowercaseVars, varsOf] using h
    show tokenize [c] = some [.varTok c]
    simp [tokenize, tokChar_lower c hc.1 hc.2]
  | const b =>
    intro _
    cases b <;> rfl
  | neg x ih =>
    intro h
    have hx := tokenize_wrap x (ih (by rw [lowercaseVars_neg] at h; exact h))
    have hdata : (Formatter.toText (.neg x)).data
        = '¬' :: (Formatter.addParenthesesIfNeeded x).data := rfl
    rw [hdata]
    simp only [tokenize, show tokChar '¬' = some (some Tok.negTok) from rfl]
    rw [hx, tokTree_neg]
    rfl
  | bin op l r ihl ihr =>
    intro h
    rw [lowercaseVars_bin, Bool.and_eq_true] at h
    have hl := tokenize_wrap l (ihl h.1)
    have hr := tokenize_wrap r (ihr h.2)
    have hdata : (Formatter.toText (.bin op l r)).data
        = '(' :: ((Formatter.addParenthesesIfNeeded l).data
            ++ ((Formatter.glyph op).data
              ++ ((Formatter.addParenthesesIfNeeded r).data ++ [')']))) := by
      show (("(" ++ Formatter.addParenthesesIfNeeded l ++ Formatter.glyph op
          ++ Formatter.addParenthesesIfNeeded r ++ ")") : String).data = _
      simp [strData_append, List.append_assoc]
    rw [hdata]
    simp only [tokenize, show tokChar '(' = some (some Tok.lparen) from rfl]
    rw [tokenize_append, hl, tokenize_glyph, tokenize_append, hr]
    simp [show tokenize [')'] = some [Tok.rparen] from rfl, tokTree_bin]


/-! ### One-step equations and loop lemmas for the parser engine -/

theorem parseFn_formula (k : Nat) (ts : List Tok) :
    parseFn (k+1) .formula ts
      = match parseFn k .impl ts with
        | none => none
        | some (n, ts2) => parseFn k (.formulaLoop n) ts2 := rfl

theorem parseFn_impl (k : Nat) (ts : List Tok) :
    parseFn (k+1) .impl ts
      = match parseFn k .disj ts with
        | none => none
        | some (n, ts2) => parseFn k (.implLoop n) ts2 := rfl

theorem parseFn_disj (k : Nat) (ts : List Tok) :
    parseFn (k+1) .disj ts
      = match parseFn k .conj ts with
        | none => none
        | some (n, ts2) => parseFn k (.disjLoop n) ts2 := rfl

theorem parseFn_conj (k : Nat) (ts : List Tok) :
    parseFn (k+1) .conj ts
      = match parseFn k .negp ts with
        | none => none
        | some (n, ts2) => parseFn k (.conjLoop n) ts2 := rfl

theorem parseFn_negp_neg (k : Nat) (rest : List Tok) :
    parseFn (k+1) .negp (.negTok :: rest)
      = match parseFn k .negp rest with
        | none => none
        | some (n, ts2) => some (.neg n, ts2) := rfl

theorem parseFn_negp_other (k : Nat) (hd : Tok) (tl : List Tok) (h : hd ≠ .negTok) :
    parseFn (k+1) .negp (hd :: tl) = parseFn k .atom (hd :: tl) := by
  cases hd <;> first | rfl | exact absurd rfl h

theorem parseFn_atom_lparen (k : Nat) (rest : List Tok) :
    parseFn (k+1) .atom (.lparen :: rest)
      = match parseFn k .formula rest with
        | none => none
        | some (n, ts2) =>
          match ts2 with
          | .rparen :: ts3 => some (n, ts3)
          | _ => none := rfl

theorem parseFn_atom_var (k : Nat) (c : Char) (rest : List Tok) :
    parseFn (k+1) .atom (.varTok c :: rest) = some (.var c, rest) := rfl

theorem parseFn_atom_const (k : Nat) (b : Bool) (rest : List Tok) :
    parseFn (k+1) .atom (.constTok b :: rest) = some (.const b, rest) := rfl

theorem formulaLoop_fire (k : Nat) (n : Node) (rest : List Tok) :
    parseFn (k+1) (.formulaLoop n) (.equivTok :: rest)
      = match parseFn k .impl rest with
        | none => none
        | some (r, ts2) => parseFn k (.formulaLoop (.bin .equiv n r)) ts2 := rfl

theorem implLoop_fire (k : Nat) (n : Node) (rest : List Tok) :
    parseFn (k+1) (.implLoop n) (.implTok :: rest)
      = match parseFn k .disj rest with
        | none => none
        | some (r, ts2) => parseFn k (.implLoop (.bin .impl n r)) ts2 := rfl

theorem disjLoop_fire (k : Nat) (n : Node) (rest : List Tok) :
    parseFn (k+1) (.disjLoop n) (.orTok :: rest)
      = match parseFn k .conj rest with
        | none => none
        | some (r, ts2) => parseFn k (.disjLoop (.bin .disj n r)) ts2 := rfl

theorem conjLoop_fire (k : Nat) (n : Node) (rest : List Tok) :
    parseFn (k+1) (.conjLoop n) (.andTok :: rest)
      = match parseFn k .negp rest with
        | none => none
        | some (r, ts2) => parseFn k (.conjLoop (.bin .conj n r)) ts2 := rfl

theorem formulaLoop_exit (k : Nat) (n : Node) :
    ∀ ts : List Tok, (∀ tl, ts ≠ .equivTok :: tl) →
      parseFn (k+1) (.formulaLoop n) ts = some (n, ts) := by
  intro ts h
  match ts with
  | [] => rfl
  | hd :: tl => cases hd <;> first | rfl | exact absurd rfl (h tl)

theorem implLoop_exit (k : Nat) (n : Node) :
    ∀ ts : List Tok, (∀ tl, ts ≠ .implTok :: tl) →
      parseFn (k+1) (.implLoop n) ts = some (n, ts) := by
  intro ts h
  match ts with
  | [] => rfl
  | hd :: tl => cases hd <;> first | rfl | exact absurd rfl (h tl)

theorem disjLoop_exit (k : Nat) (n : Node) :
    ∀ ts : List Tok, (∀ tl, ts ≠ .orTok :: tl) →
      parseFn (k+1) (.disjLoop n) ts = some (n, ts) := by
  intro ts h
  match ts with
  | [] => rfl
  | hd :: tl => cases hd <;> first | rfl | exact absurd rfl (h tl)

theorem conjLoop_exit (k : Nat) (n : Node) :
    ∀ ts : List Tok, (∀ tl, ts ≠ .andTok :: tl) →
      parseFn (k+1) (.conjLoop n) ts = some (n, ts) := by
  intro ts h
  match ts with
  | [] => rfl
  | hd :: tl => cases hd <;> first | rfl | exact absurd rfl (h tl)

/-- The remaining input does not start with any binary-operator token, so
every chain loop exits immediately. -/
def noBinHead : List Tok → Bool
  | .andTok :: _ => false
  | .orTok :: _ => false
  | .implTok :: _ => false
  | .equivTok :: _ => false
  | _ => true

theorem noBinHead_and (ts : List Tok) (h : noBinHead ts = true) :
    ∀ tl, ts ≠ Tok.andTok :: tl := by
  intro tl hEq; rw [hEq] at h; simp [noBinHead] at h

theorem noBinHead_or (ts : List Tok) (h : noBinHead ts = true) :
    ∀ tl, ts ≠ Tok.orTok :: tl := by
  intro tl hEq; rw [hEq] at h; simp [noBinHead] at h

theorem noBinHead_impl (ts : List Tok) (h : noBinHead ts = true) :
    ∀ tl, ts ≠ Tok.implTok :: tl := by
  intro tl hEq; rw [hEq] at h; simp [noBinHead] at h

theorem noBinHead_equiv (ts : List Tok) (h : noBinHead ts = true) :
    ∀ tl, ts ≠ Tok.equivTok :: tl := by
  intro tl hEq; rw [hEq] at h; simp [noBinHead] at h

/-- Lifting a negation-level parse to a formula-level parse when the
remaining input starts with no binary operator: the four chain loops all
exit at once, costing five fuel units. -/
theorem negp_to_formula (b : Nat) (ts : List Tok) (t : Node) (rest : List Tok)
    (h : ∀ f, b ≤ f → parseFn f .negp ts = some (t, rest))
    (hstop : noBinHead rest = true) :
    ∀ f, b + 5 ≤ f → parseFn f .formula ts = some (t, rest) := by
  intro f hf
  obtain ⟨k, rfl⟩ : ∃ k, f = k + 5 := ⟨f - 5, by omega⟩
  have h1 : parseFn (k+1) .negp ts = some (t, rest) := h (k+1) (by omega)
  have h2 : parseFn (k+2) .conj ts = some (t, rest) := by
    rw [show k+2 = (k+1)+1 from rfl, parseFn_conj, h1]
    exact conjLoop_exit k t rest (noBinHead_and rest hstop)
  have h3 : parseFn (k+3) .disj ts = some (t, rest) := by
    rw [show k+3 = (k+2)+1 from rfl, parseFn_disj, h2]
    exact disjLoop_exit (k+1) t rest (noBinHead_or rest hstop)
  have h4 : parseFn (k+4) .impl ts = some (t, rest) := by
    rw [show k+4 = (k+3)+1 from rfl, parseFn_impl, h3]
    exact implLoop_exit (k+2) t rest (noBinHead_impl rest hstop)
  rw [show k+5 = (k+4)+1 from rfl, parseFn_formula, h4]
  exact formulaLoop_exit (k+3) t rest (noBinHead_equiv rest hstop)

theorem head_ne_cons (a b : Tok) (h : a ≠ b) (xs : List Tok) :
    ∀ tl, a :: xs ≠ b :: tl := by
  intro tl hEq
  injection hEq with h1 h2
  exact h h1

/-- Lifting a parse of the plain token tree to a parse of the wrapped
token sequence (an extra pair of parentheses when the node is binary). -/
theorem wrap_of_tokTree (x : Node)
    (hA : ∀ rest f, 16 * (tokTree x).length ≤ f →
      parseFn f .negp (tokTree x ++ rest) = some (x, rest)) :
    ∀ rest f, 16 * (wrapToks x).length ≤ f →
      parseFn f .negp (wrapToks x ++ rest) = some (x, rest) := by
  intro rest f hf
  by_cases hb : x.isBinary
  · simp only [wrapToks, if_pos hb] at hf ⊢
    simp only [List.length_cons, List.length_append, List.length_singleton] at hf
    obtain ⟨k, rfl⟩ : ∃ k, f = k + 2 := ⟨f - 2, by omega⟩
    rw [List.cons_append,
      parseFn_negp_other (k+1) _ _ (fun hEq => Tok.noConfusion hEq),
      parseFn_atom_lparen]
    have hassoc : (tokTree x ++ [Tok.rparen]) ++ rest
        = tokTree x ++ (Tok.rparen :: rest) := by simp
    rw [hassoc]
    have hform : parseFn k .formula (tokTree x ++ (Tok.rparen :: rest))
        = some (x, Tok.rparen :: rest) :=
      negp_to_formula (16 * (tokTree x).length) (tokTree x ++ (Tok.rparen :: rest))
        x (Tok.rparen :: rest) (fun f2 hf2 => hA _ f2 hf2) rfl k (by omega)
    rw [hform]
  · simp only [wrapToks, if_neg hb] at hf ⊢
    exact hA rest f hf

/-- Formula-level parse of `L ∧ R` token sequences followed by a closing
parenthesis: the conjunction loop fires once and every other loop exits. -/
theorem conj_chain (l r : Node) (wl wr rest : List Tok) (b1 b2 : Nat)
    (hl : ∀ f, b1 ≤ f →
      parseFn f .negp (wl ++ Tok.andTok :: (wr ++ Tok.rparen :: rest))
        = some (l, Tok.andTok :: (wr ++ Tok.rparen :: rest)))
    (hr : ∀ f, b2 ≤ f →
      parseFn f .negp (wr ++ Tok.rparen :: rest) = some (r, Tok.rparen :: rest)) :
    ∀ f, b1 + b2 + 16 ≤ f →
      parseFn f .formula (wl ++ Tok.andTok :: (wr ++ Tok.rparen :: rest))
        = some (.bin .conj l r, Tok.rparen :: rest) := by
  intro f hf
  obtain ⟨m, rfl⟩ : ∃ m, f = m + 6 := ⟨f - 6, by omega⟩
  have h1 : parseFn (m+3) .conj (wl ++ Tok.andTok :: (wr ++ Tok.rparen :: rest))
      = some (.bin .conj l r, Tok.rparen :: rest) := by
    rw [show m+3 = (m+2)+1 from rfl, parseFn_conj, hl (m+2) (by omega)]
    show parseFn (m+2) (.conjLoop l) (Tok.andTok :: (wr ++ Tok.rparen :: rest)) = _
    rw [show m+2 = (m+1)+1 from rfl, conjLoop_fire, hr (m+1) (by omega)]
    show parseFn (m+1) (.conjLoop (.bin .conj l r)) (Tok.rparen :: rest) = _
    exact conjLoop_exit m _ _ (head_ne_cons _ _ (by decide) _)
  have h2 : parseFn (m+4) .disj (wl ++ Tok.andTok :: (wr ++ Tok.rparen :: rest))
      = some (.bin .conj l r, Tok.rparen :: rest) := by
    rw [show m+4 = (m+3)+1 from rfl, parseFn_disj, h1]
    show parseFn (m+3) (.disjLoop (.bin .conj l r)) (Tok.rparen :: rest) = _
    exact disjLoop_exit (m+2) _ _ (head_ne_cons _ _ (by decide) _)
  have h3 : parseFn (m+5) .impl (wl ++ Tok.andTok :: (wr ++ Tok.rparen :: rest))
      = some (.bin .conj l r, Tok.rparen :: rest) := by
    rw [show m+5 = (m+4)+1 from rfl, parseFn_impl, h2]
    show parseFn (m+4) (.implLoop (.bin .conj l r)) (Tok.rparen :: rest) = _
    exact implLoop_exit (m+3) _ _ (head_ne_cons _ _ (by decide) _)
  rw [show m+6 = (m+5)+1 from rfl, parseFn_formula, h3]
  show parseFn (m+5) (.formulaLoop (.bin .conj l r)) (Tok.rparen :: rest) = _
  exact formulaLoop_exit (m+4) _ _ (head_ne_cons _ _ (by decide) _)

/-- Formula-level parse of `L ∨ R` token sequences followed by a closing
parenthesis. -/
theorem disj_chain (l r : Node) (wl wr rest : List Tok) (b1 b2 : Nat)
    (hl : ∀ f, b1 ≤ f →
      parseFn f .negp (wl ++ Tok.orTok :: (wr ++ Tok.rparen :: rest))
        = some (l, Tok.orTok :: (wr ++ Tok.rparen :: rest)))
    (hr : ∀ f, b2 ≤ f →
      parseFn f .negp (wr ++ Tok.rparen :: rest) = some (r, Tok.rparen :: rest)) :
    ∀ f, b1 + b2 + 16 ≤ f →
      parseFn f .formula (wl ++ Tok.orTok :: (wr ++ Tok.rparen :: rest))
        = some (.bin .disj l r, Tok.rparen :: rest) := by
  intro f hf
  obtain ⟨m, rfl⟩ : ∃ m, f = m + 6 := ⟨f - 6, by omega⟩
  have h1 : parseFn (m+3) .conj (wl ++ Tok.orTok :: (wr ++ Tok.rparen :: rest))
      = some (l, Tok.orTok :: (wr ++ Tok.rparen :: rest)) := by
    rw [show m+3 = (m+2)+1 from rfl, parseFn_conj, hl (m+2) (by omega)]
    show parseFn (m+2) (.conjLoop l) (Tok.orTok :: (wr ++ Tok.rparen :: rest)) = _
    exact conjLoop_exit (m+1) _ _ (head_ne_cons _ _ (by decide) _)
  have h2 : parseFn (m+2) .conj (wr ++ Tok.rparen :: rest)
      = some (r, Tok.rparen :: rest) := by
    rw [show m+2 = (m+1)+1 from rfl, parseFn_conj, hr (m+1) (by omega)]
    show parseFn (m+1) (.conjLoop r) (Tok.rparen :: rest) = _
    exact conjLoop_exit m _ _ (head_ne_cons _ _ (by decide) _)
  have h3 : parseFn (m+4) .disj (wl ++ Tok.orTok :: (wr ++ Tok.rparen :: rest))
      = some (.bin .disj l r, Tok.rparen :: rest) := by
    rw [show m+4 = (m+3)+1 from rfl, parseFn_disj, h1]
    show parseFn (m+3) (.disjLoop l) (Tok.orTok :: (wr ++ Tok.rparen :: rest)) = _
    rw [show m+3 = (m+2)+1 from rfl, disjLoop_fire, h2]
    show parseFn (m+2) (.disjLoop (.bin .disj l r)) (Tok.rparen :: rest) = _
    exact disjLoop_exit (m+1) _ _ (head_ne_cons _ _ (by decide) _)
  have h4 : parseFn (m+5) .impl (wl ++ Tok.orTok :: (wr ++ Tok.rparen :: rest))
      = some (.bin .disj l r, Tok.rparen :: rest) := by
    rw [show m+5 = (m+4)+1 from rfl, parseFn_impl, h3]
    show parseFn (m+4) (.implLoop (.bin .disj l r)) (Tok.rparen :: rest) = _
    exact implLoop_exit (m+3) _ _ (head_ne_cons _ _ (by decide) _)
  rw [show m+6 = (m+5)+1 from rfl, parseFn_formula, h4]
  show parseFn (m+5) (.formulaLoop (.bin .disj l r)) (Tok.rparen :: rest) = _
  exact formulaLoop_exit (m+4) _ _ (head_ne_cons _ _ (by decide) _)

/-- Formula-level parse of `L → R` token sequences followed by a closing
parenthesis. -/
theorem impl_chain (l r : Node) (wl wr rest : List Tok) (b1 b2 : Nat)
    (hl : ∀ f, b1 ≤ f →
      parseFn f .negp (wl ++ Tok.implTok :: (wr ++ Tok.rparen :: rest))
        = some (l, Tok.implTok :: (wr ++ Tok.rparen :: rest)))
    (hr : ∀ f, b2 ≤ f →
      parseFn f .negp (wr ++ Tok.rparen :: rest) = some (r, Tok.rparen :: rest)) :
    ∀ f, b1 + b2 + 16 ≤ f →
      parseFn f .formula (wl ++ Tok.implTok :: (wr ++ Tok.rparen :: rest))
        = some (.bin .impl l r, Tok.rparen :: rest) := by
  intro f hf
  obtain ⟨m, rfl⟩ : ∃ m, f = m + 6 := ⟨f - 6, by omega⟩
  have h1 : parseFn (m+3) .conj (wl ++ Tok.implTok :: (wr ++ Tok.rparen :: rest))
      = some (l, Tok.implTok :: (wr ++ Tok.rparen :: rest)) := by
    rw [show m+3 = (m+2)+1 from rfl, parseFn_conj, hl (m+2) (by omega)]
    show parseFn (m+2) (.conjLoop l) (Tok.implTok :: (wr ++ Tok.rparen :: rest)) = _
    exact conjLoop_exit (m+1) _ _ (head_ne_cons _ _ (by decide) _)
  have h2 : parseFn (m+4) .disj (wl ++ Tok.implTok :: (wr ++ Tok.rparen :: rest))
      = some (l, Tok.implTok :: (wr ++ Tok.rparen :: rest)) := by
    rw [show m+4 = (m+3)+1 from rfl, parseFn_disj, h1]
    show parseFn (m+3) (.disjLoop l) (Tok.implTok :: (wr ++ Tok.rparen :: rest)) = _
    exact disjLoop_exit (m+2) _ _ (head_ne_cons _ _ (by decide) _)
  have h3 : parseFn (m+2) .conj (wr ++ Tok.rparen :: rest)
      = some (r, Tok.rparen :: rest) := by
    rw [show m+2 = (m+1)+1 from rfl, parseFn_conj, hr (m+1) (by omega)]
    show parseFn (m+1) (.conjLoop r) (Tok.rparen :: rest) = _
    exact conjLoop_exit m _ _ (head_ne_cons _ _ (by decide) _)
  have h4 : parseFn (m+3) .disj (wr ++ Tok.rparen :: rest)
      = some (r, Tok.rparen :: rest) := by
    rw [show m+3 = (m+2)+1 from rfl, parseFn_disj, h3]
    show parseFn (m+2) (.disjLoop r) (Tok.rparen :: rest) = _
    exact disjLoop_exit (m+1) _ _ (head_ne_cons _ _ (by decide) _)
  have h5 : parseFn (m+5) .impl (wl ++ Tok.implTok :: (wr ++ Tok.rparen :: rest))
      = some (.bin .impl l r, Tok.rparen :: rest) := by
    rw [show m+5 = (m+4)+1 from rfl, parseFn_impl, h2]
    show parseFn (m+4) (.implLoop l) (Tok.implTok :: (wr ++ Tok.rparen :: rest)) = _
    rw [show m+4 = (m+3)+1 from rfl, implLoop_fire, h4]
    show parseFn (m+3) (.implLoop (.bin .impl l r)) (Tok.rparen :: rest) = _
    exact implLoop_exit (m+2) _ _ (head_ne_cons _ _ (by decide) _)
  rw [show m+6 = (m+5)+1 from rfl, parseFn_formula, h5]
  show parseFn (m+5) (.formulaLoop (.bin .impl l r)) (Tok.rparen :: rest) = _
  exact formulaLoop_exit (m+4) _ _ (head_ne_cons _ _ (by decide) _)

/-- Formula-level parse of `L ↔ R` token sequences followed by a closing
parenthesis. -/
theorem equiv_chain (l r : Node) (wl wr rest : List Tok) (b1 b2 : Nat)
    (hl : ∀ f, b1 ≤ f →
      parseFn f .negp (wl ++ Tok.equivTok :: (wr ++ Tok.rparen :: rest))
        = some (l, Tok.equivTok :: (wr ++ Tok.rparen :: rest)))
    (hr : ∀ f, b2 ≤ f →
      parseFn f .negp (wr ++ Tok.rparen :: rest) = some (r, Tok.rparen :: rest)) :
    ∀ f, b1 + b2 + 16 ≤ f →
      parseFn f .formula (wl ++ Tok.equivTok :: (wr ++ Tok.rparen :: rest))
        = some (.bin .equiv l r, Tok.rparen :: rest) := by
  intro f hf
  obtain ⟨m, rfl⟩ : ∃ m, f = m + 6 := ⟨f - 6, by omega⟩
  have h1 : parseFn (m+3) .conj (wl ++ Tok.equivTok :: (wr ++ Tok.rparen :: rest))
      = some (l, Tok.equivTok :: (wr ++ Tok.rparen :: rest)) := by
    rw [show m+3 = (m+2)+1 from rfl, parseFn_conj, hl (m+2) (by omega)]
    show parseFn (m+2) (.conjLoop l) (Tok.equivTok :: (wr ++ Tok.rparen :: rest)) = _
    exact conjLoop_exit (m+1) _ _ (head_ne_cons _ _ (by decide) _)
  have h2 : parseFn (m+4) .disj (wl ++ Tok.equivTok :: (wr ++ Tok.rparen :: rest))
      = some (l, Tok.equivTok :: (wr ++ Tok.rparen :: rest)) := by
    rw [show m+4 = (m+3)+1 from rfl, parseFn_disj, h1]
    show parseFn (m+3) (.disjLoop l) (Tok.equivTok :: (wr ++ Tok.rparen :: rest)) = _
    exact disjLoop_exit (m+2) _ _ (head_ne_cons _ _ (by decide) _)
  have h3 : parseFn (m+5) .impl (wl ++ Tok.equivTok :: (wr ++ Tok.rparen :: rest))
      = some (l, Tok.equivTok :: (wr ++ Tok.rparen :: rest)) := by
    rw [show m+5 = (m+4)+1 from rfl, parseFn_impl, h2]
    show parseFn (m+4) (.implLoop l) (Tok.equivTok :: (wr ++ Tok.rparen :: rest)) = _
    exact implLoop_exit (m+3) _ _ (head_ne_cons _ _ (by decide) _)
  have h4 : parseFn (m+2) .conj (wr ++ Tok.rparen :: rest)
      = some (r, Tok.rparen :: rest) := by
    rw [show m+2 = (m+1)+1 from rfl, parseFn_conj, hr (m+1) (by omega)]
    show parseFn (m+1) (.conjLoop r) (Tok.rparen :: rest) = _
    exact conjLoop_exit m _ _ (head_ne_cons _ _ (by decide) _)
  have h5 : parseFn (m+3) .disj (wr ++ Tok.rparen :: rest)
      = some (r, Tok.rparen :: rest) := by
    rw [show m+3 = (m+2)+1 from rfl, parseFn_disj, h4]
    show parseFn (m+2) (.disjLoop r) (Tok.rparen :: rest) = _
    exact disjLoop_exit (m+1) _ _ (head_ne_cons _ _ (by decide) _)
  have h6 : parseFn (m+4) .impl (wr ++ Tok.rparen :: rest)
      = some (r, Tok.rparen :: rest) := by
    rw [show m+4 = (m+3)+1 from rfl, parseFn_impl, h5]
    show parseFn (m+3) (.implLoop r) (Tok.rparen :: rest) = _
    exact implLoop_exit (m+2) _ _ (head_ne_cons _ _ (by decide) _)
  rw [show m+6 = (m+5)+1 from rfl, parseFn_formula, h3]
  show parseFn (m+5) (.formulaLoop l) (Tok.equivTok :: (wr ++ Tok.rparen :: rest)) = _
  rw [show m+5 = (m+4)+1 from rfl, formulaLoop_fire, h6]
  show parseFn (m+4) (.formulaLoop (.bin .equiv l r)) (Tok.rparen :: rest) = _
  exact formulaLoop_exit (m+3) _ _ (head_ne_cons _ _ (by decide) _)

/-- The negation-level parse of the token tree of any formula consumes
exactly those tokens and rebuilds the formula, for any fuel of at least
sixteen per token. -/
theorem parseFn_tokTree : ∀ (t : Node) (rest : List Tok) (f : Nat),
    16 * (tokTree t).length ≤ f →
    parseFn f .negp (tokTree t ++ rest) = some (t, rest) := by
  intro t
  induction t with
  | var c =>
    intro rest f hf
    simp only [tokTree, List.length_singleton] at hf
    obtain ⟨k, rfl⟩ : ∃ k, f = k + 2 := ⟨f - 2, by omega⟩
    rw [show tokTree (.var c) ++ rest = Tok.varTok c :: rest from rfl,
      parseFn_negp_other (k+1) _ _ (fun hEq => Tok.noConfusion hEq),
      parseFn_atom_var]
  | const b =>
    intro rest f hf
    simp only [tokTree, List.length_singleton] at hf
    obtain ⟨k, rfl⟩ : ∃ k, f = k + 2 := ⟨f - 2, by omega⟩
    rw [show tokTree (.const b) ++ rest = Tok.constTok b :: rest from rfl,
      parseFn_negp_other (k+1) _ _ (fun hEq => Tok.noConfusion hEq),
      parseFn_atom_const]
  | neg x ih =>
    intro rest f hf
    rw [tokTree_neg] at hf ⊢
    simp only [List.length_cons] at hf
    obtain ⟨k, rfl⟩ : ∃ k, f = k + 1 := ⟨f - 1, by omega⟩
    rw [List.cons_append, parseFn_negp_neg,
      wrap_of_tokTree x ih rest k (by omega)]
  | bin op l r ihl ihr =>
    intro rest f hf
    rw [tokTree_bin] at hf ⊢
    simp only [List.length_cons, List.length_append, List.length_singleton] at hf
    have hwl := wrap_of_tokTree l ihl
    have hwr := wrap_of_tokTree r ihr
    obtain ⟨k, rfl⟩ : ∃ k, f = k + 2 := ⟨f - 2, by omega⟩
    rw [List.cons_append,
      parseFn_negp_other (k+1) _ _ (fun hEq => Tok.noConfusion hEq),
      parseFn_atom_lparen]
    have hassoc : (wrapToks l ++ opTok op :: (wrapToks r ++ [Tok.rparen])) ++ rest
        = wrapToks l ++ (opTok op :: (wrapToks r ++ Tok.rparen :: rest)) := by simp
    rw [hassoc]
    have hform : parseFn k .formula
        (wrapToks l ++ (opTok op :: (wrapToks r ++ Tok.rparen :: rest)))
        = some (.bin op l r, Tok.rparen :: rest) := by
      cases op with
      | conj =>
        exact conj_chain l r _ _ rest _ _
          (fun f2 h2 => hwl _ f2 h2) (fun f2 h2 => hwr _ f2 h2) k (by omega)
      | disj =>
        exact disj_chain l r _ _ rest _ _
          (fun f2 h2 => hwl _ f2 h2) (fun f2 h2 => hwr _ f2 h2) k (by omega)
      | impl =>
        exact impl_chain l r _ _ rest _ _
          (fun f2 h2 => hwl _ f2 h2) (fun f2 h2 => hwr _ f2 h2) k (by omega)
      | equiv =>
        exact equiv_chain l r _ _ rest _ _
          (fun f2 h2 => hwl _ f2 h2) (fun f2 h2 => hwr _ f2 h2) k (by omega)
    rw [hform]

/-- Parsing the rendering of a well-formed formula returns the formula
itself: the rendering tokenizes to the token tree, and the token tree
parses back with no remaining input. -/
theorem parse_toText (t : Node) (h : lowercaseVars t = true) :
    parse (Formatter.toText t) = some t := by
  unfold parse
  rw [tokenize_toText t h]
  show (match parseFn (16 * (tokTree t).length + 16) .formula (tokTree t) with
    | none => none
    | some (n, rest) => if rest.isEmpty then some n else none) = some t
  have h0 : ∀ f2, 16 * (tokTree t).length ≤ f2 →
      parseFn f2 .negp (tokTree t) = some (t, []) := by
    intro f2 hf2
    have hA := parseFn_tokTree t [] f2 hf2
    rwa [List.append_nil] at hA
  have hform := negp_to_formula (16 * (tokTree t).length) (tokTree t) t [] h0 rfl
    (16 * (tokTree t).length + 16) (by omega)
  rw [hform]
  rfl

/-- Only lowercase letters appear as variable tokens. -/
def tokLower : Tok → Bool
  | .varTok c => decide ('a' ≤ c ∧ c ≤ 'z')
  | _ => true

/-- Every variable token of the list is a lowercase letter. -/
def tokensLower (ts : List Tok) : Bool := ts.all tokLower

/-- The node carried by a loop tier has only lowercase variables. -/
def tierLower : PTier → Bool
  | .formulaLoop n => lowercaseVars n
  | .implLoop n => lowercaseVars n
  | .disjLoop n => lowercaseVars n
  | .conjLoop n => lowercaseVars n
  | _ => true

theorem tokensLower_cons (tk : Tok) (ts : List Tok) :
    tokensLower (tk :: ts) = (tokLower tk && tokensLower ts) := rfl

set_option maxHeartbeats 1000000 in
theorem tokChar_sound (c : Char) (tk : Tok) (h : tokChar c = some (some tk)) :
    tokLower tk = true := by
  unfold tokChar at h
  split_ifs at h
  all_goals injection h with h2
  all_goals injection h2
  all_goals rename_i h3
  all_goals subst h3
  all_goals simp_all [tokLower]

theorem tokenize_lower : ∀ cs ts, tokenize cs = some ts → tokensLower ts = true := by
  intro cs
  induction cs with
  | nil =>
    intro ts h
    simp only [tokenize, Option.some.injEq] at h
    subst h; rfl
  | cons c rest ih =>
    intro ts h
    simp only [tokenize] at h
    cases hc : tokChar c with
    | none => rw [hc] at h; exact Option.noConfusion h
    | some o =>
      cases o with
      | none => rw [hc] at h; exact ih ts h
      | some tk =>
        rw [hc] at h
        cases hr : tokenize rest with
        | none => rw [hr] at h; exact Option.noConfusion h
        | some ts2 =>
          rw [hr] at h
          injection h with h4
          subst h4
          rw [tokensLower_cons, Bool.and_eq_true]
          exact ⟨tokChar_sound c tk hc, ih ts2 hr⟩

/-- Every node the parser engine returns has only lowercase variables,
provided the input tokens and the node carried by the tier do; the
remaining tokens again satisfy the token condition. -/
theorem parseFn_lower : ∀ (f : Nat) (tier : PTier) (ts : List Tok)
    (n : Node) (ts2 : List Tok),
    tierLower tier = true → tokensLower ts = true →
    parseFn f tier ts = some (n, ts2) →
    lowercaseVars n = true ∧ tokensLower ts2 = true := by
  intro f
  induction f with
  | zero =>
    intro tier ts n ts2 _ _ h
    exact Option.noConfusion h
  | succ k ih =>
    intro tier ts n ts2 htier hts h
    cases tier with
    | formula =>
      rw [parseFn_formula] at h
      cases h1 : parseFn k .impl ts with
      | none => rw [h1] at h; exact Option.noConfusion h
      | some p =>
        obtain ⟨n1, ts1⟩ := p
        rw [h1] at h
        have hh := ih .impl ts n1 ts1 rfl hts h1
        exact ih (.formulaLoop n1) ts1 n ts2 hh.1 hh.2 h
    | impl =>
      rw [parseFn_impl] at h
      cases h1 : parseFn k .disj ts with
      | none => rw [h1] at h; exact Option.noConfusion h
      | some p =>
        obtain ⟨n1, ts1⟩ := p
        rw [h1] at h
        have hh := ih .disj ts n1 ts1 rfl hts h1
        exact ih (.implLoop n1) ts1 n ts2 hh.1 hh.2 h
    | disj =>
      rw [parseFn_disj] at h
      cases h1 : parseFn k .conj ts with
      | none => rw [h1] at h; exact Option.noConfusion h
      | some p =>
        obtain ⟨n1, ts1⟩ := p
        rw [h1] at h
        have hh := ih .conj ts n1 ts1 rfl hts h1
        exact ih (.disjLoop n1) ts1 n ts2 hh.1 hh.2 h
    | conj =>
      rw [parseFn_conj] at h
      cases h1 : parseFn k .negp ts with
      | none => rw [h1] at h; exact Option.noConfusion h
      | some p =>
        obtain ⟨n1, ts1⟩ := p
        rw [h1] at h
        have hh := ih .negp ts n1 ts1 rfl hts h1
        exact ih (.conjLoop n1) ts1 n ts2 hh.1 hh.2 h
    | negp =>
      cases ts with
      | nil => exact ih .atom [] n ts2 rfl hts h
      | cons hd tl =>
        by_cases hhd : hd = Tok.negTok
        · subst hhd
          rw [parseFn_negp_neg] at h
          cases h1 : parseFn k .negp tl with
          | none => rw [h1] at h; exact Option.noConfusion h
          | some p =>
            obtain ⟨n1, ts1⟩ := p
            rw [h1] at h
            have hts2 : tokensLower tl = true := by
              rw [tokensLower_cons, Bool.and_eq_true] at hts; exact hts.2
            have hh := ih .negp tl n1 ts1 rfl hts2 h1
            injection h with h4
            injection h4 with h5 h6
            subst h5; subst h6
            refine ⟨?_, hh.2⟩
            rw [lowercaseVars_neg]; exact hh.1
        · rw [parseFn_negp_other k hd tl hhd] at h
          exact ih .atom (hd :: tl) n ts2 rfl hts h
    | atom =>
      cases ts with
      | nil => exact Option.noConfusion h
      | cons hd tl =>
        have hts2 : tokensLower tl = true := by
          rw [tokensLower_cons, Bool.and_eq_true] at hts; exact hts.2
        cases hd with
        | lparen =>
          rw [parseFn_atom_lparen] at h
          cases h1 : parseFn k .formula tl with
          | none => rw [h1] at h; exact Option.noConfusion h
          | some p =>
            obtain ⟨n1, ts1⟩ := p
            rw [h1] at h
            have hh := ih .formula tl n1 ts1 rfl hts2 h1
            cases ts1 with
            | nil => exact Option.noConfusion h
            | cons hd2 tl2 =>
              have hh2 : tokensLower tl2 = true := by
                have := hh.2
                rw [tokensLower_cons, Bool.and_eq_true] at this; exact this.2
              cases hd2
              case rparen =>
                injection h with h4
                injection h4 with h5 h6
                subst h5; subst h6
                exact ⟨hh.1, hh2⟩
              all_goals exact Option.noConfusion h
        | varTok c =>
          rw [parseFn_atom_var] at h
          injection h with h4
          injection h4 with h5 h6
          subst h5; subst h6
          refine ⟨?_, hts2⟩
          rw [tokensLower_cons, Bool.and_eq_true] at hts
          have := hts.1
          simpa [lowercaseVars, varsOf, tokLower] using this
        | constTok b =>
          rw [parseFn_atom_const] at h
          injection h with h4
          injection h4 with h5 h6
          subst h5; subst h6
          exact ⟨by simp [lowercaseVars, varsOf], hts2⟩
        | negTok => exact Option.noConfusion h
        | andTok => exact Option.noConfusion h
        | orTok => exact Option.noConfusion h
        | implTok => exact Option.noConfusion h
        | equivTok => exact Option.noConfusion h
        | rparen => exact Option.noConfusion h
    | formulaLoop n1 =>
      cases ts with
      | nil =>
        injection h with h4
        injection h4 with h5 h6
        subst h5; subst h6
        exact ⟨htier, hts⟩
      | cons hd tl =>
        cases hd
        case equivTok =>
          rw [formulaLoop_fire] at h
          cases h1 : parseFn k .impl tl with
          | none => rw [h1] at h; exact Option.noConfusion h
          | some p =>
            obtain ⟨r, ts1⟩ := p
            rw [h1] at h
            have hts2 : tokensLower tl = true := by
              rw [tokensLower_cons, Bool.and_eq_true] at hts; exact hts.2
            have hr := ih .impl tl r ts1 rfl hts2 h1
            have hnode : lowercaseVars (.bin .equiv n1 r) = true := by
              rw [lowercaseVars_bin, Bool.and_eq_true]; exact ⟨htier, hr.1⟩
            exact ih (.formulaLoop (.bin .equiv n1 r)) ts1 n ts2 hnode hr.2 h
        all_goals
          (injection h with h4
           injection h4 with h5 h6
           subst h5; subst h6
           exact ⟨htier, hts⟩)
    | implLoop n1 =>
      cases ts with
      | nil =>
        injection h with h4
        injection h4 with h5 h6
        subst h5; subst h6
        exact ⟨htier, hts⟩
      | cons hd tl =>
        cases hd
        case implTok =>
          rw [implLoop_fire] at h
          cases h1 : parseFn k .disj tl with
          | none => rw [h1] at h; exact Option.noConfusion h
          | some p =>
            obtain ⟨r, ts1⟩ := p
            rw [h1] at h
            have hts2 : tokensLower tl = true := by
              rw [tokensLower_cons, Bool.and_eq_true] at hts; exact hts.2
            have hr := ih .disj tl r ts1 rfl hts2 h1
            have hnode : lowercaseVars (.bin .impl n1 r) = true := by
              rw [lowercaseVars_bin, Bool.and_eq_true]; exact ⟨htier, hr.1⟩
            exact ih (.implLoop (.bin .impl n1 r)) ts1 n ts2 hnode hr.2 h
        all_goals
          (injection h with h4
           injection h4 with h5 h6
           subst h5; subst h6
           exact ⟨htier, hts⟩)
    | disjLoop n1 =>
      cases ts with
      | nil =>
        injection h with h4
        injection h4 with h5 h6
        subst h5; subst h6
        exact ⟨htier, hts⟩
      | cons hd tl =>
        cases hd
        case orTok =>
          rw [disjLoop_fire] at h
          cases h1 : parseFn k .conj tl with
          | none => rw [h1] at h; exact Option.noConfusion h
          | some p =>
            obtain ⟨r, ts1⟩ := p
            rw [h1] at h
            have hts2 : tokensLower tl = true := by
              rw [tokensLower_cons, Bool.and_eq_true] at hts; exact hts.2
            have hr := ih .conj tl r ts1 rfl hts2 h1
            have hnode : lowercaseVars (.bin .disj n1 r) = true := by
              rw [lowercaseVars_bin, Bool.and_eq_true]; exact ⟨htier, hr.1⟩
            exact ih (.disjLoop (.bin .disj n1 r)) ts1 n ts2 hnode hr.2 h
        all_goals
          (injection h with h4
           injection h4 with h5 h6
           subst h5; subst h6
           exact ⟨htier, hts⟩)
    | conjLoop n1 =>
      cases ts with
      | nil =>
        injection h with h4
        injection h4 with h5 h6
        subst h5; subst h6
        exact ⟨htier, hts⟩
      | cons hd tl =>
        cases hd
        case andTok =>
          rw [conjLoop_fire] at h
          cases h1 : parseFn k .negp tl with
          | none => rw [h1] at h; exact Option.noConfusion h
          | some p =>
            obtain ⟨r, ts1⟩ := p
            rw [h1] at h
            have hts2 : tokensLower tl = true := by
              rw [tokensLower_cons, Bool.and_eq_true] at hts; exact hts.2
            have hr := ih .negp tl r ts1 rfl hts2 h1
            have hnode : lowercaseVars (.bin .conj n1 r) = true := by
              rw [lowercaseVars_bin, Bool.and_eq_true]; exact ⟨htier, hr.1⟩
            exact ih (.conjLoop (.bin .conj n1 r)) ts1 n ts2 hnode hr.2 h
        all_goals
          (injection h with h4
           injection h4 with h5 h6
           subst h5; subst h6
           exact ⟨htier, hts⟩)

/-- Every AST the parser returns has only lowercase variables. -/
theorem parse_lower (s : String) (t : Node) (h : parse s = some t) :
    lowercaseVars t = true := by
  unfold parse at h
  cases htk : tokenize s.data with
  | none => rw [htk] at h; exact Option.noConfusion h
  | some toks =>
    rw [htk] at h
    have h2 : (match parseFn (16 * toks.length + 16) .formula toks with
      | none => none
      | some (n, rest) => if rest.isEmpty then some n else none) = some t := h
    cases hp : parseFn (16 * toks.length + 16) .formula toks with
    | none => rw [hp] at h2; exact Option.noConfusion h2
    | some p =>
      obtain ⟨n, rest⟩ := p
      rw [hp] at h2
      have hlow := parseFn_lower (16 * toks.length + 16) .formula toks n rest rfl
        (tokenize_lower s.data toks htk) hp
      by_cases hres : rest.isEmpty
      · have h3 : some n = some t := by
          have h4 : (if rest.isEmpty then some n else none) = some t := h2
          rwa [if_pos hres] at h4
        injection h3 with h5
        subst h5
        exact hlow.1
      · have h4 : (if rest.isEmpty then some n else none) = some t := h2
        rw [if_neg hres] at h4
        exact Option.noConfusion h4

end Parser

/-- C6: for every formula string the parser accepts, formatting the parsed
AST to text and parsing that text again yields an AST structurally equal
to the original parse (the rendered string may differ from the input only
in parenthesisation). -/
theorem c6_parse_format_roundtrip (s : String) (t : Node)
    (h : Parser.parse s = some t) :
    Parser.parse (Formatter.toText t) = some t :=
  Parser.parse_toText t (Parser.parse_lower s t h)

/-- Witness for C6 at the concrete accepted input `a∧b`. -/
theorem c6_parse_format_roundtrip_witness :
    Parser.parse "a∧b" = some (.bin .conj (.var 'a') (.var 'b')) ∧
    Parser.parse (Formatter.toText (.bin .conj (.var 'a') (.var 'b')))
      = some (.bin .conj (.var 'a') (.var 'b')) :=
  ⟨by decide, c6_parse_format_roundtrip "a∧b" _ (by decide)⟩

end Quiz
